import Mathlib

/-!
# Verification of the L-NER ensemble tagger and metric evaluator

Shallow embedding of `src/legal_ner/main_ensemble.py` (the `CustomModelWithCRF`
module, the label-list construction, and `compute_metrics`), together with the
parts of its two numeric dependencies that the script's behaviour rests on:
the `torchcrf.CRF` layer (forward log-likelihood, Viterbi decoding, input
validation) and the span collection of the `nervaluate` evaluator.

Real-valued tensors are modelled as (lists of) real numbers; integer tensors
as lists of `ℤ`/`ℕ`; boolean masks as lists of `Bool`.  Batched tensor
operations of the CRF decompose example-wise, so they are embedded as
per-example functions mapped over the batch.
-/

namespace LNER

/-! ## Label list and label count (main_ensemble.py, lines 185–203) -/

/-- The fourteen entity types (`original_label_list`, lines 185–200). -/
def original_label_list : List String :=
  ["COURT", "PETITIONER", "RESPONDENT", "JUDGE", "DATE", "ORG", "GPE",
   "STATUTE", "PROVISION", "PRECEDENT", "CASE_NUMBER", "WITNESS",
   "OTHER_PERSON", "LAWYER"]

/-- `labels_list = ["B-" + l ...] + ["I-" + l ...]` (lines 201–202). -/
def labels_list : List String :=
  original_label_list.map (fun l => "B-" ++ l) ++
    original_label_list.map (fun l => "I-" ++ l)

/-- `num_labels = len(labels_list) + 1` (line 203). -/
def num_labels : ℕ := labels_list.length + 1

/-! ## Model construction (`CustomModelWithCRF.__init__`, lines 18–37)

Only the facts the constructor establishes are modelled: the widths of the
projection layer and of the CRF, and which parameter groups have
`requires_grad` set.  A Hugging Face `AutoModel` for BERT/RoBERTa consists of
three parameter-bearing submodules: `embeddings`, `encoder` (the transformer
layer stack) and `pooler`; `m.encoder.requires_grad_(False)` switches off
gradients for the `encoder` submodule only. -/

structure CustomModelWithCRF where
  bertEmbeddingsGrad : Bool
  bertEncoderGrad : Bool
  bertPoolerGrad : Bool
  robertaEmbeddingsGrad : Bool
  robertaEncoderGrad : Bool
  robertaPoolerGrad : Bool
  linearGrad : Bool
  crfGrad : Bool
  linearInFeatures : ℕ
  linearOutFeatures : ℕ
  crfNumTags : ℕ
  deriving Repr, DecidableEq

/-- `CustomModelWithCRF.__init__(bert_model_path, roberta_model_path,
num_labels, freeze=False, ...)`: loads the two encoders (all parameters
trainable, as pretrained modules are loaded with `requires_grad=True`),
freezes exactly the `encoder` submodule of each when `freeze` is set,
then creates `nn.Linear(768*2, num_labels)` and `CRF(num_labels,
batch_first=True)` — both fresh, hence trainable. -/
def initCustomModelWithCRF (numLabels : ℕ) (freeze : Bool) : CustomModelWithCRF :=
  { bertEmbeddingsGrad := true
    bertEncoderGrad := !freeze
    bertPoolerGrad := true
    robertaEmbeddingsGrad := true
    robertaEncoderGrad := !freeze
    robertaPoolerGrad := true
    linearGrad := true
    crfGrad := true
    linearInFeatures := 768 * 2
    linearOutFeatures := numLabels
    crfNumTags := numLabels }

/-- Modelled from the spec: the label-set size claimed by the spec
("pairs of B- and I- per type plus one O plus one ignore sentinel"), i.e. one
slot per B- tag and per I- tag of each of the 14 types, one for `O`, and one
for the ignore sentinel. -/
def specLabelSetSize : ℕ := 2 * original_label_list.length + 1 + 1

/-! ## Metric evaluator (`compute_metrics`, lines 206–245)

Floating-point prediction scores and metric values are idealized as rationals.
`pred.predictions` is a batch × seq × labels array of scores, `pred.label_ids`
a batch × seq array of gold ids (with the ignore sentinel `-100`), and
`idx_to_labels` (built from the dataset collaborator's `labels_to_idx`) is an
abstract map from ids to tag strings. -/

/-- `np.max` over a one-dimensional array (helper for `np.argmax`). -/
def np_max : List ℚ → ℚ
  | [] => 0
  | [x] => x
  | x :: y :: xs => max x (np_max (y :: xs))

/-- `np.argmax` over a one-dimensional array: index of the first occurrence
of the maximum value. -/
def np_argmax : List ℚ → ℕ
  | [] => 0
  | [_] => 0
  | x :: y :: xs => if np_max (y :: xs) ≤ x then 0 else np_argmax (y :: xs) + 1

/-- The per-position conversion `idx_to_labels[p] if p != -100 else "O"`
(lines 211 and 216). -/
def idToTag (idxToLabels : ℤ → String) (p : ℤ) : String :=
  if p ≠ -100 then idxToLabels p else "O"

/-- `predictions = np.argmax(pred.predictions, axis=-1)` (line 209):
row-wise first-max index over the label axis. -/
def argmaxed (preds : List (List (List ℚ))) : List (List ℕ) :=
  preds.map (fun ex => ex.map np_argmax)

/-- `predictions = np.concatenate(predictions, axis=0)` (line 210): the
per-example rows are concatenated into one flat id sequence. -/
def flat_predictions (preds : List (List (List ℚ))) : List ℕ :=
  (argmaxed preds).flatten

/-- `prediction_ids = [[idx_to_labels[p] if p != -100 else "O" for p in
predictions]]` (line 211): a single row holding the whole flattened batch. -/
def prediction_ids (f : ℤ → String) (preds : List (List (List ℚ))) :
    List (List String) :=
  [(flat_predictions preds).map (fun (p : ℕ) => idToTag f (p : ℤ))]

/-- `labels = np.concatenate(labels, axis=0)` (line 215). -/
def flat_labels (labelIds : List (List ℤ)) : List ℤ := labelIds.flatten

/-- `labels_ids = [[idx_to_labels[p] if p != -100 else "O" for p in labels]]`
(line 216). -/
def labels_ids (f : ℤ → String) (labelIds : List (List ℤ)) :
    List (List String) :=
  [(flat_labels labelIds).map (idToTag f)]

/-- Character-level model of python `str.split("-")`: split into the chunks
between dashes (empty chunks included, as in python). -/
def splitDashAux : List Char → List Char → List (List Char)
  | [], cur => [cur.reverse]
  | c :: cs, cur =>
    if c = '-' then cur.reverse :: splitDashAux cs []
    else splitDashAux cs (c :: cur)

/-- `l.split("-")[-1]`: the component after the last dash. -/
def lastDashComponent (s : String) : String :=
  String.mk ((splitDashAux s.data []).getLastD [])

/-- `unique_labels = list(set([l.split("-")[-1] for l in
list(set(labels_ids[0]))]))` (line 217).  Python's `set` has unspecified
iteration order; the model fixes first-occurrence order (`dedup`), which has
the same elements. -/
def unique_labels (tags : List String) : List String :=
  (tags.dedup.map lastDashComponent).dedup

/-- `unique_labels.remove("O")` (line 218): Python's `list.remove` deletes the
first occurrence and raises `ValueError` when the element is absent. -/
def remove_O (ul : List String) : Except String (List String) :=
  if "O" ∈ ul then .ok (ul.erase "O") else
    .error "ValueError: list.remove(x): x not in list"

/-- A precision/recall pair as produced by the `nervaluate` evaluator for one
matching regime. -/
structure PR where
  p : ℚ
  r : ℚ
  deriving Repr, DecidableEq

/-- The `results` dict of `evaluator.evaluate()`: one precision/recall pair
per matching regime (`ent_type`, `partial`, `strict`, `exact`). -/
structure EvalResults where
  ent_type : PR
  partMatch : PR
  strictMatch : PR
  exactMatch : PR
  deriving Repr, DecidableEq

/-- The epsilon-stabilized F1 of lines 229–244:
`2 * p * r / (p + r + 1e-9)` (the float literal `1e-9` idealized as the
rational `1/10^9`). -/
def epsF1 (pr : PR) : ℚ := 2 * pr.p * pr.r / (pr.p + pr.r + 1 / 1000000000)

/-- The dict returned by `compute_metrics`; fields are the entries
`"f1-type-match"`, `"f1-partial"`, `"f1-strict"`, `"f1-exact"` in source
order. -/
structure MetricsOut where
  f1_type_match : ℚ
  f1_part : ℚ
  f1_strict : ℚ
  f1_exact : ℚ
  deriving Repr, DecidableEq

/-- `compute_metrics(pred)` (lines 206–245).  The external
`Evaluator(labels_ids, prediction_ids, tags=unique_labels, loader="list")
.evaluate()` call is abstracted as the function argument `evaluate`, applied
to exactly the data the source passes it.  The computation fails (raises)
exactly where the source does: at `unique_labels.remove("O")`. -/
def compute_metrics (f : ℤ → String)
    (evaluate : List (List String) → List (List String) → List String →
      EvalResults)
    (preds : List (List (List ℚ))) (labelIds : List (List ℤ)) :
    Except String MetricsOut :=
  let predIds := prediction_ids f preds
  let labIds := labels_ids f labelIds
  match remove_O (unique_labels (labIds.headD [])) with
  | .error e => .error e
  | .ok ul =>
    let results := evaluate labIds predIds ul
    .ok { f1_type_match := epsF1 results.ent_type
          f1_part := epsF1 results.partMatch
          f1_strict := epsF1 results.strictMatch
          f1_exact := epsF1 results.exactMatch }

/-! ## Span collection of the `nervaluate` evaluator

`nervaluate.collect_named_entities` converts one flat tag row into entity
spans; it is embedded to witness what flattening does at example boundaries.
In the source, `end_offset` is reset to `None` on every path that closes an
entity, so the running state reduces to the accumulated entities plus the
optionally open entity `(type, start_offset)`. -/

/-- One entity span: type, start offset, end offset (inclusive). -/
structure Entity where
  e_type : String
  start_offset : ℕ
  end_offset : ℕ
  deriving Repr, DecidableEq

/-- The scan loop of `collect_named_entities` over `(offset, tag)` pairs,
with `n` the total token count (for the final catch-all that closes an entity
running to the last token). -/
def collect_aux (n : ℕ) :
    List (ℕ × String) → List Entity → Option (String × ℕ) → List Entity
  | [], acc, none => acc
  | [], acc, some (ty, st) => acc ++ [⟨ty, st, n - 1⟩]
  | (off, tag) :: rest, acc, st =>
    if tag = "O" then
      match st with
      | none => collect_aux n rest acc none
      | some (ty, s) => collect_aux n rest (acc ++ [⟨ty, s, off - 1⟩]) none
    else
      match st with
      | none => collect_aux n rest acc (some (tag.drop 2, off))
      | some (ty, s) =>
        if ty ≠ tag.drop 2 ∨ (ty = tag.drop 2 ∧ tag.take 1 = "B") then
          collect_aux n rest (acc ++ [⟨ty, s, off - 1⟩])
            (some (tag.drop 2, off))
        else
          collect_aux n rest acc (some (ty, s))

/-- `nervaluate.collect_named_entities(tokens)`. -/
def collect_named_entities (tokens : List String) : List Entity :=
  collect_aux tokens.length tokens.enum [] none

/-! ## The `torchcrf.CRF` layer (constructed with `batch_first=True`)

Float tensors are idealized as real numbers.  Each batched tensor operation
of `torchcrf` acts example-wise (after the internal transpose to time-major
layout), so `_compute_score`, `_compute_normalizer` and `_viterbi_decode` are
embedded as per-example functions mapped over the batch.  Out-of-range tag
ids would raise in PyTorch; indexing is embedded with `getD` and theorems
carry in-range hypotheses. -/

/-- The learned parameters of a `CRF(num_tags, batch_first=True)` layer. -/
structure CRFParams where
  numTags : ℕ
  start_transitions : List ℝ
  end_transitions : List ℝ
  transitions : List (List ℝ)

/-- Shape sanity for a `CRFParams` value (inherent to the tensors
`torch.empty(num_tags)`, `torch.empty(num_tags, num_tags)`). -/
def CRFShape (p : CRFParams) : Prop :=
  p.start_transitions.length = p.numTags ∧
    p.end_transitions.length = p.numTags ∧
    p.transitions.length = p.numTags ∧
    ∀ row ∈ p.transitions, row.length = p.numTags

/-- Helper for `_validate`: when tags are given, their shape must equal the
first two dimensions of the emissions. -/
def tags_shape_ok (em : List (List (List ℝ))) :
    Option (List (List ℕ)) → Bool
  | none => true
  | some tg => em.map List.length == tg.map List.length

/-- `CRF._validate(emissions, tags, mask)` with `batch_first=True`: the last
emission dimension must be `num_tags`, `tags` and `mask` must share the first
two emission dimensions, and `mask[:, 0]` must be all on.  (The `dim == 3`
check is inherent in the nesting depth of the embedding.) -/
def crf_validate (K : ℕ) (em : List (List (List ℝ)))
    (tags : Option (List (List ℕ))) (mask : List (List Bool)) :
    Except String Unit :=
  if ¬ em.all (fun ex => ex.all (fun row => row.length = K)) then
    .error "expected last dimension of emissions is num_tags"
  else if ¬ tags_shape_ok em tags then
    .error "the first two dimensions of emissions and tags must match"
  else if ¬ (em.map List.length = mask.map List.length) then
    .error "the first two dimensions of emissions and mask must match"
  else if ¬ mask.all (fun mrow => mrow.headD false) then
    .error "mask of the first timestep must all be on"
  else .ok ()

/-- `logsumexp` over a vector. -/
noncomputable def logsumexp (l : List ℝ) : ℝ := Real.log (l.map Real.exp).sum

/-- Steps `i = 1 .. seq_length-1` of `CRF._compute_score` for one example:
`score += transitions[tags[i-1], tags[i]] * mask[i] +
emissions[i, tags[i]] * mask[i]`. -/
def score_steps (trans : List (List ℝ)) :
    List (List ℝ) → List ℕ → List Bool → ℕ → ℝ
  | [], _, _, _ => 0
  | _, [], _, _ => 0
  | _, _, [], _ => 0
  | e :: es, t :: ts, m :: ms, prev =>
    (if m then (trans.getD prev []).getD t 0 + e.getD t 0 else 0) +
      score_steps trans es ts ms t

/-- `CRF._compute_score` for one example: start transition and first
emission, the masked steps, and the end transition of the last valid tag
(`tags[mask.sum() - 1]`). -/
def compute_score (p : CRFParams) (em : List (List ℝ)) (tags : List ℕ)
    (mask : List Bool) : ℝ :=
  match em, tags with
  | e0 :: es, t0 :: ts =>
    p.start_transitions.getD t0 0 + e0.getD t0 0 +
      score_steps p.transitions es ts mask.tail t0 +
      p.end_transitions.getD ((t0 :: ts).getD (mask.count true - 1) 0) 0
  | _, _ => 0

/-- One forward-algorithm step of `CRF._compute_normalizer`:
`next_score[t] = logsumexp_s(score[s] + transitions[s, t] + emission[t])`. -/
noncomputable def norm_step (trans : List (List ℝ)) (alpha : List ℝ)
    (e : List ℝ) : List ℝ :=
  (List.range alpha.length).map fun t =>
    logsumexp ((List.range alpha.length).map fun s =>
      alpha.getD s 0 + (trans.getD s []).getD t 0 + e.getD t 0)

/-- The loop of `CRF._compute_normalizer`: steps with `mask[i]` off keep the
running score (`torch.where`). -/
noncomputable def norm_loop (trans : List (List ℝ)) :
    List (List ℝ) → List Bool → List ℝ → List ℝ
  | [], _, alpha => alpha
  | _, [], alpha => alpha
  | e :: es, m :: ms, alpha =>
    norm_loop trans es ms (if m then norm_step trans alpha e else alpha)

/-- `CRF._compute_normalizer` for one example: seed with
`start_transitions + emissions[0]`, loop, add `end_transitions`, final
`logsumexp`. -/
noncomputable def compute_normalizer (p : CRFParams) (em : List (List ℝ))
    (mask : List Bool) : ℝ :=
  match em with
  | [] => 0
  | e0 :: es =>
    logsumexp (List.zipWith (· + ·)
      (norm_loop p.transitions es mask.tail
        (List.zipWith (· + ·) p.start_transitions e0))
      p.end_transitions)

/-- Per-example log-likelihood `numerator - denominator` of `CRF.forward`. -/
noncomputable def crf_llh (p : CRFParams) (em : List (List ℝ)) (tags : List ℕ)
    (mask : List Bool) : ℝ :=
  compute_score p em tags mask - compute_normalizer p em mask

/-- `CRF.forward(emissions, tags, mask, reduction)` (scalar reductions; the
vector-valued `reduction='none'` is not modelled — the repository only ever
passes `reduction="mean"`).  `mean` is `llh.mean()`, i.e. the sum of the
per-example log-likelihoods divided by the batch size; `token_mean` is
`llh.sum() / mask.float().sum()`. -/
noncomputable def crf_forward (p : CRFParams) (em : List (List (List ℝ)))
    (tags : List (List ℕ)) (mask : List (List Bool)) (reduction : String) :
    Except String ℝ :=
  match crf_validate p.numTags em (some tags) mask with
  | .error e => .error e
  | .ok _ =>
    let llh := (List.zip em (List.zip tags mask)).map
      (fun x => crf_llh p x.1 x.2.1 x.2.2)
    if reduction = "sum" then .ok llh.sum
    else if reduction = "mean" then .ok (llh.sum / llh.length)
    else if reduction = "token_mean" then
      .ok (llh.sum / ((mask.map (fun r => (r.count true : ℝ))).sum))
    else .error "invalid reduction"

/-- Maximum of a score vector (`torch.max(v, dim)[0]`). -/
noncomputable def listMax : List ℝ → ℝ
  | [] => 0
  | [x] => x
  | x :: y :: xs => max x (listMax (y :: xs))

/-- An index attaining the maximum of a score vector
(`torch.max(v, dim)[1]`; the tie-break order is immaterial, the embedding
takes the first maximising index). -/
noncomputable def idxMax : List ℝ → ℕ
  | [] => 0
  | [_] => 0
  | x :: y :: xs => if listMax (y :: xs) ≤ x then 0 else idxMax (y :: xs) + 1

/-- The candidate scores `score[s] + transitions[s, t] + emission[t]` over
previous tags `s` in one `_viterbi_decode` step. -/
noncomputable def vit_scores (trans : List (List ℝ)) (alpha : List ℝ)
    (e : List ℝ) (t : ℕ) : List ℝ :=
  (List.range alpha.length).map fun s =>
    alpha.getD s 0 + (trans.getD s []).getD t 0 + e.getD t 0

/-- `next_score` of one `_viterbi_decode` step. -/
noncomputable def vit_next (trans : List (List ℝ)) (alpha : List ℝ)
    (e : List ℝ) : List ℝ :=
  (List.range alpha.length).map fun t => listMax (vit_scores trans alpha e t)

/-- `indices` of one `_viterbi_decode` step (appended to `history`
whether or not the step is masked). -/
noncomputable def vit_idx (trans : List (List ℝ)) (alpha : List ℝ)
    (e : List ℝ) : List ℕ :=
  (List.range alpha.length).map fun t => idxMax (vit_scores trans alpha e t)

/-- The loop of `_viterbi_decode` for one example: returns the final score
vector (`torch.where` keeps the old score on masked steps) and the history
of backpointer rows in step order. -/
noncomputable def viterbi_loop (trans : List (List ℝ)) :
    List (List ℝ) → List Bool → List ℝ → List ℝ × List (List ℕ)
  | [], _, alpha => (alpha, [])
  | _, [], alpha => (alpha, [])
  | e :: es, m :: ms, alpha =>
    let r := viterbi_loop trans es ms
      (if m then vit_next trans alpha e else alpha)
    (r.1, vit_idx trans alpha e :: r.2)

/-- The backtracking of `_viterbi_decode`: walk the reversed truncated
history from the best last tag, then reverse.  The argument list is the
reversed history; the result is in forward order. -/
def backtrack : List (List ℕ) → ℕ → List ℕ
  | [], t => [t]
  | ix :: rest, t => backtrack rest (ix.getD t 0) ++ [t]

/-- `_viterbi_decode` for one example: seed with
`start_transitions + emissions[0]`, loop, add `end_transitions`, take a best
last tag, and backtrack through `history[:mask.sum() - 1]` reversed. -/
noncomputable def viterbi_decode_one (p : CRFParams) (em : List (List ℝ))
    (mask : List Bool) : List ℕ :=
  match em with
  | [] => []
  | e0 :: es =>
    let r := viterbi_loop p.transitions es mask.tail
      (List.zipWith (· + ·) p.start_transitions e0)
    let fin := List.zipWith (· + ·) r.1 p.end_transitions
    backtrack ((r.2.take (mask.count true - 1)).reverse) (idxMax fin)

/-- `CRF.decode(emissions, mask)`: validate, then Viterbi-decode each
example. -/
noncomputable def crf_decode (p : CRFParams) (em : List (List (List ℝ)))
    (mask : List (List Bool)) : Except String (List (List ℕ)) :=
  match crf_validate p.numTags em none mask with
  | .error e => .error e
  | .ok _ => .ok ((List.zip em mask).map fun x => viterbi_decode_one p x.1 x.2)

/-- The score of a complete tag path `y` for one fully valid example: start
transition and first emission, transitions and emissions along the path, and
the end transition of the last tag.  This is what the CRF assigns to a
candidate label sequence (and equals `compute_score` under an all-on mask). -/
def trans_sum (trans : List (List ℝ)) : List (List ℝ) → List ℕ → ℕ → ℝ
  | [], _, _ => 0
  | _, [], _ => 0
  | e :: es, t :: ts, prev =>
    (trans.getD prev []).getD t 0 + e.getD t 0 + trans_sum trans es ts t

/-- Total path score over emissions `em` of a candidate tag sequence `y`. -/
def path_score (p : CRFParams) (em : List (List ℝ)) (y : List ℕ) : ℝ :=
  match em, y with
  | e0 :: es, t0 :: ts =>
    p.start_transitions.getD t0 0 + e0.getD t0 0 +
      trans_sum p.transitions es ts t0 +
      p.end_transitions.getD ((t0 :: ts).getLastD 0) 0
  | _, _ => 0

/-! ## `CustomModelWithCRF.forward` (lines 39–61)

The two pretrained encoders, and the (stochastic, training-mode) dropout, are
external collaborators; they enter as opaque functions producing per-token
hidden vectors.  The linear projection and the concatenation along the
feature dimension are embedded concretely. -/

/-- The sub-modules `forward` composes before the CRF: the two encoders'
final-layer hidden states, dropout, and the `nn.Linear` weight/bias. -/
structure EnsembleNets where
  bertHidden : List (List ℤ) → Option (List (List ℤ)) → List (List Bool) →
    List (List (List ℝ))
  robertaHidden : List (List ℤ) → List (List Bool) → List (List (List ℝ))
  dropoutF : List (List (List ℝ)) → List (List (List ℝ))
  linearW : List (List ℝ)
  linearB : List ℝ

/-- `nn.Linear(W, b)` applied to one token vector. -/
def linear_apply (W : List (List ℝ)) (b : List ℝ) (x : List ℝ) : List ℝ :=
  (List.range W.length).map fun j =>
    (List.zipWith (· * ·) (W.getD j []) x).sum + b.getD j 0

/-- `torch.cat((bert, roberta), dim=-1)`: concatenate the two per-token
hidden vectors. -/
def cat_last (a b : List (List (List ℝ))) : List (List (List ℝ)) :=
  List.zipWith (fun ex1 ex2 => List.zipWith (· ++ ·) ex1 ex2) a b

/-- Lines 41–55: the emission logits
`linear(dropout(cat(bert_hidden, roberta_hidden)))`. -/
def ensemble_logits (nets : EnsembleNets) (input_ids : List (List ℤ))
    (attention_mask : List (List Bool))
    (token_type_ids : Option (List (List ℤ))) : List (List (List ℝ)) :=
  let bert := nets.bertHidden input_ids token_type_ids attention_mask
  let rob := nets.robertaHidden input_ids attention_mask
  (nets.dropoutF (cat_last bert rob)).map
    (fun ex => ex.map (linear_apply nets.linearW nets.linearB))

/-- The two possible results of `CustomModelWithCRF.forward`: the training
branch returns `(crf_loss, logits)`, the inference branch the decoded
per-example tag sequences. -/
inductive ForwardOutput where
  | trainMode (loss : ℝ) (logits : List (List (List ℝ)))
  | inferMode (decoded : List (List ℕ))

/-- `CustomModelWithCRF.forward(input_ids, attention_mask, token_type_ids,
labels)` (lines 39–61): compute the logits, then either
`(-self.crf(logits, labels, mask, reduction="mean"), logits)` when labels
are given, or `self.crf.decode(logits, mask)` otherwise. -/
noncomputable def model_forward (p : CRFParams) (nets : EnsembleNets)
    (input_ids : List (List ℤ)) (attention_mask : List (List Bool))
    (token_type_ids : Option (List (List ℤ)))
    (labels : Option (List (List ℕ))) : Except String ForwardOutput :=
  let logits := ensemble_logits nets input_ids attention_mask token_type_ids
  match labels with
  | some tags =>
    match crf_forward p logits tags attention_mask "mean" with
    | .error e => .error e
    | .ok llh => .ok (.trainMode (-llh) logits)
  | none =>
    match crf_decode p logits attention_mask with
    | .error e => .error e
    | .ok out => .ok (.inferMode out)

/-! ## Auxiliary notions used by the theorems -/

/-- A left-contiguous attention mask: once a position is off, all later
positions are off.  Real attention masks (true tokens then padding) have this
shape. -/
def contig : List Bool → Bool
  | [] => true
  | true :: ms => contig ms
  | false :: ms => ms.all (fun b => b = false)

/-- The final tag of the path `s :: y` (start tag `s`, continuation `y`). -/
def lastTag (s : ℕ) (y : List ℕ) : ℕ := y.getLastD s

/-- All candidate tag sequences of length `n` over `K` tags — the space the
CRF partition function sums over. -/
def allPaths (K : ℕ) : ℕ → List (List ℕ)
  | 0 => [[]]
  | n + 1 =>
    ((List.range K).map (fun t => (allPaths K n).map (fun y => t :: y))).flatten

/-- Modelled from the spec: "all loss values are sequence-length-normalized
means, not sums, so sequences of different valid length are comparable" — the
total negative log-likelihood divided by the total number of valid (mask-on)
token positions (`torchcrf`'s `token_mean` reduction, negated).  Used only to
compare against the loss the code computes. -/
noncomputable def spec_seq_len_normalized_loss (p : CRFParams)
    (em : List (List (List ℝ))) (tags : List (List ℕ))
    (mask : List (List Bool)) : ℝ :=
  ((List.zip em (List.zip tags mask)).map
      (fun x => -crf_llh p x.1 x.2.1 x.2.2)).sum /
    ((mask.map (fun r => (r.count true : ℝ))).sum)

/-- A two-tag CRF with all parameters zero (concrete test input). -/
def pZero2 : CRFParams := ⟨2, [0, 0], [0, 0], [[0, 0], [0, 0]]⟩

/-- Two examples × two timesteps × two tags of all-zero emissions. -/
def emZero22 : List (List (List ℝ)) := [[[0, 0], [0, 0]], [[0, 0], [0, 0]]]

/-- All-zero gold tags for two examples of (padded) length two. -/
def tagsZero22 : List (List ℕ) := [[0, 0], [0, 0]]

/-- Masks giving the two examples valid lengths 1 and 2. -/
def maskLen12 : List (List Bool) := [[true, false], [true, true]]

/-- Concrete sub-modules making the ensemble produce all-zero logits for a
batch of two length-two examples: both encoders return empty hidden vectors,
dropout is the identity, and the projection has empty weight rows and zero
bias over two output labels. -/
def netsZero : EnsembleNets :=
  { bertHidden := fun _ _ _ => [[[], []], [[], []]]
    robertaHidden := fun _ _ => [[[], []], [[], []]]
    dropoutF := fun x => x
    linearW := [[], []]
    linearB := [0, 0] }

/-- Concrete input ids for the two-example batch. -/
def idsTwo : List (List ℤ) := [[1, 1], [1, 1]]

/-! # Theorems -/

/-! ## C1: projection width and CRF label dimension -/

/-- C1 (counterexample): the label-set size the claim prescribes — one slot
per B- tag and per I- tag of the 14 types, one for the `O` tag, and one for
the ignore sentinel, i.e. 30 — is not the width the code uses: `num_labels`
is `len(labels_list) + 1 = 29` (the ignore sentinel `-100` has no label
slot), so the projection width the driver constructs the tagger with differs
from the claimed `N`. -/
theorem num_labels_differs_from_spec_label_set_size :
    num_labels = 29 ∧ specLabelSetSize = 30 ∧
      (initCustomModelWithCRF num_labels false).linearOutFeatures ≠
        specLabelSetSize := by
  decide

/-- C1 (amended): for every constructor argument `n` the projection layer's
output width and the CRF's label dimension both equal exactly `n` — the
constructor takes a single label-count parameter, so a tagger with mismatched
projection/CRF sizes cannot be constructed at all — and the driver's label
count is `2·14 + 1 = 29`: the B- and I- tags plus one `O` tag, with no slot
for the ignore sentinel. -/
theorem projection_and_crf_width_agree (n : ℕ) (freeze : Bool) :
    (initCustomModelWithCRF n freeze).linearOutFeatures = n ∧
      (initCustomModelWithCRF n freeze).crfNumTags = n ∧
      num_labels = 2 * original_label_list.length + 1 :=
  ⟨rfl, rfl, by decide⟩

/-! ## C8: the freeze flag -/

/-- C8 (counterexample): constructing the tagger with the freeze flag set
does not exclude all parameters of the two pretrained models from gradient
updates — the embedding submodules of both remain trainable, because the
code calls `requires_grad_(False)` only on the `encoder` submodules. -/
theorem freeze_does_not_freeze_embeddings :
    ¬ ((initCustomModelWithCRF num_labels true).bertEmbeddingsGrad = false ∧
       (initCustomModelWithCRF num_labels true).robertaEmbeddingsGrad =
         false) := by
  decide

/-- C8 (amended): when the freeze flag is set, exactly the transformer-stack
(`encoder`) submodules of the two pretrained models are excluded from
gradient updates; their embedding and pooler parameters, the linear
projection and the CRF all remain trainable.  When the flag is unset, no
parameter is frozen. -/
theorem freeze_flag_exact_semantics (n : ℕ) :
    initCustomModelWithCRF n true =
      { bertEmbeddingsGrad := true, bertEncoderGrad := false
        bertPoolerGrad := true, robertaEmbeddingsGrad := true
        robertaEncoderGrad := false, robertaPoolerGrad := true
        linearGrad := true, crfGrad := true
        linearInFeatures := 768 * 2, linearOutFeatures := n
        crfNumTags := n } ∧
      initCustomModelWithCRF n false =
      { bertEmbeddingsGrad := true, bertEncoderGrad := true
        bertPoolerGrad := true, robertaEmbeddingsGrad := true
        robertaEncoderGrad := true, robertaPoolerGrad := true
        linearGrad := true, crfGrad := true
        linearInFeatures := 768 * 2, linearOutFeatures := n
        crfNumTags := n } :=
  ⟨rfl, rfl⟩

/-! ## C5: the ignore sentinel becomes the `O` tag before scoring -/

/-- C5: in `compute_metrics`, both the flattened gold sequence and the
flattened prediction sequence are converted with the same map, which sends
every occurrence of the ignore sentinel `-100` to the literal tag `"O"`
(for predictions vacuously: `np.argmax` indices are never negative). -/
theorem sentinel_positions_become_O (f : ℤ → String)
    (labelIds : List (List ℤ)) (preds : List (List (List ℚ))) (i : ℕ)
    (hi : i < (flat_labels labelIds).length)
    (hsent : (flat_labels labelIds).getD i 0 = -100) :
    idToTag f (-100) = "O" ∧
      ((labels_ids f labelIds).headD []).getD i "" = "O" ∧
      ∀ q ∈ flat_predictions preds, (q : ℤ) ≠ -100 := by
  refine ⟨rfl, ?_, ?_⟩
  · have h1 : ((flat_labels labelIds).map (idToTag f)).getD i "" =
        ((flat_labels labelIds).map (idToTag f)).getD i (idToTag f 0) := by
      rw [List.getD_eq_getElem _ _ (by simpa using hi),
        List.getD_eq_getElem _ _ (by simpa using hi)]
    rw [labels_ids, List.headD_cons, h1, List.getD_map, hsent]
    rfl
  · intro q _
    have := Int.natCast_nonneg q
    omega

/-- C5 (witness): the sentinel replacement at a concrete batch. -/
theorem sentinel_positions_become_O_witness :
    idToTag (fun _ => "B-ORG") (-100) = "O" ∧
      ((labels_ids (fun _ => "B-ORG") [[-100]]).headD []).getD 0 "" = "O" ∧
      ∀ q ∈ flat_predictions [[[(1 : ℚ)]]], (q : ℤ) ≠ -100 :=
  sentinel_positions_become_O (fun _ => "B-ORG") [[-100]]
    [[[(1 : ℚ)]]] 0 (by decide) (by decide)

/-! ## Shared lemmas about `unique_labels` and span collection -/

theorem mem_unique_labels_iff (tags : List String) (t : String) :
    t ∈ unique_labels tags ↔ ∃ tag ∈ tags, lastDashComponent tag = t := by
  simp [unique_labels, List.mem_dedup, List.mem_map]

theorem labels_list_lastDash_ne_O :
    ∀ tag ∈ labels_list, lastDashComponent tag ≠ "O" := by decide

theorem collect_aux_acc_mem (n : ℕ) (rest : List (ℕ × String))
    (acc : List Entity) (st : Option (String × ℕ)) (e : Entity)
    (he : e ∈ acc) : e ∈ collect_aux n rest acc st := by
  induction rest generalizing acc st with
  | nil =>
    cases st with
    | none => simpa [collect_aux] using he
    | some pr =>
      obtain ⟨ty, s⟩ := pr
      simp [collect_aux]
      exact .inl he
  | cons hd tl ih =>
    obtain ⟨off, tag⟩ := hd
    by_cases hO : tag = "O"
    · cases st with
      | none => simpa [collect_aux, hO] using ih acc none he
      | some pr =>
        obtain ⟨ty, s⟩ := pr
        simpa [collect_aux, hO] using
          ih (acc ++ [⟨ty, s, off - 1⟩]) none (by simp [he])
    · cases st with
      | none => simpa [collect_aux, hO] using ih acc _ he
      | some pr =>
        obtain ⟨ty, s⟩ := pr
        by_cases hc : ty ≠ tag.drop 2 ∨ (ty = tag.drop 2 ∧ tag.take 1 = "B")
        · simpa [collect_aux, hO, hc] using
            ih (acc ++ [⟨ty, s, off - 1⟩]) _ (by simp [he])
        · simpa [collect_aux, hO, hc] using ih acc _ he

theorem collect_aux_open_mem (n : ℕ) (rest : List (ℕ × String))
    (acc : List Entity) (ty : String) (s : ℕ) :
    ∃ e ∈ collect_aux n rest acc (some (ty, s)), e.e_type = ty := by
  induction rest generalizing acc ty s with
  | nil =>
    refine ⟨⟨ty, s, n - 1⟩, ?_, rfl⟩
    simp [collect_aux]
  | cons hd tl ih =>
    obtain ⟨off, tag⟩ := hd
    by_cases hO : tag = "O"
    · refine ⟨⟨ty, s, off - 1⟩, ?_, rfl⟩
      have : (⟨ty, s, off - 1⟩ : Entity) ∈ acc ++ [⟨ty, s, off - 1⟩] := by simp
      simpa [collect_aux, hO] using
        collect_aux_acc_mem n tl (acc ++ [⟨ty, s, off - 1⟩]) none _ this
    · by_cases hc : ty ≠ tag.drop 2 ∨ (ty = tag.drop 2 ∧ tag.take 1 = "B")
      · refine ⟨⟨ty, s, off - 1⟩, ?_, rfl⟩
        have : (⟨ty, s, off - 1⟩ : Entity) ∈ acc ++ [⟨ty, s, off - 1⟩] := by
          simp
        simpa [collect_aux, hO, hc] using
          collect_aux_acc_mem n tl (acc ++ [⟨ty, s, off - 1⟩]) _ _ this
      · simpa [collect_aux, hO, hc] using ih acc ty s

theorem collect_aux_covers (n : ℕ) (rest : List (ℕ × String))
    (acc : List Entity) (st : Option (String × ℕ)) (off : ℕ) (tag : String)
    (hmem : (off, tag) ∈ rest) (hO : tag ≠ "O") :
    ∃ e ∈ collect_aux n rest acc st, e.e_type = tag.drop 2 := by
  induction rest generalizing acc st with
  | nil => cases hmem
  | cons hd tl ih =>
    obtain ⟨off2, tag2⟩ := hd
    rcases List.mem_cons.mp hmem with heq | htl
    · cases heq
      cases st with
      | none => simpa [collect_aux, hO] using collect_aux_open_mem n tl acc _ _
      | some pr =>
        obtain ⟨ty, s⟩ := pr
        by_cases hc : ty ≠ tag.drop 2 ∨ (ty = tag.drop 2 ∧ tag.take 1 = "B")
        · simpa [collect_aux, hO, hc] using
            collect_aux_open_mem n tl (acc ++ [⟨ty, s, off - 1⟩]) _ _
        · have hty : ty = tag.drop 2 := by
            by_contra h
            exact hc (Or.inl h)
          have hB : ¬ tag.take 1 = "B" := by
            intro h
            exact hc (Or.inr ⟨hty, h⟩)
          have hopen := collect_aux_open_mem n tl acc ty s
          rw [hty] at hopen
          simpa [collect_aux, hO, hty, hB] using hopen
    · by_cases hO2 : tag2 = "O"
      · cases st with
        | none => simpa [collect_aux, hO2] using ih acc none htl
        | some pr =>
          obtain ⟨ty, s⟩ := pr
          simpa [collect_aux, hO2] using
            ih (acc ++ [⟨ty, s, off2 - 1⟩]) none htl
      · cases st with
        | none => simpa [collect_aux, hO2] using ih acc _ htl
        | some pr =>
          obtain ⟨ty, s⟩ := pr
          by_cases hc : ty ≠ tag2.drop 2 ∨ (ty = tag2.drop 2 ∧ tag2.take 1 = "B")
          · simpa [collect_aux, hO2, hc] using
              ih (acc ++ [⟨ty, s, off2 - 1⟩]) _ htl
          · simpa [collect_aux, hO2, hc] using ih acc _ htl

/-- Any non-`O` tag occurring in a token row yields a collected entity with
its type (`token_tag[2:]`). -/
theorem collect_covers_tokens (tokens : List String) (tag : String)
    (htag : tag ∈ tokens) (hO : tag ≠ "O") :
    ∃ e ∈ collect_named_entities tokens, e.e_type = tag.drop 2 := by
  obtain ⟨i, hi, hget⟩ := List.mem_iff_getElem.mp htag
  have henum : (i, tag) ∈ tokens.enum := by
    rw [List.mk_mem_enum_iff_getElem?]
    simp [hget, List.getElem?_eq_getElem hi]
  exact collect_aux_covers tokens.length tokens.enum [] none i tag henum hO

/-! ## C7: absent entity types are excluded from the evaluator's tag set -/

/-- C7: if a batch contains no gold entity of type `t` (no span collected
from the gold tag row has type `t`), then `t` is not in the unique-label set
handed to the evaluator (`tags=unique_labels` after `remove("O")`).  The
vocabulary hypothesis states that gold tags are either `"O"` or well-formed
`B-`/`I-` tags, whose type is both the text after position 2 and the text
after the last dash — true of every tag the label list produces. -/
theorem absent_type_excluded_from_unique_labels (f : ℤ → String)
    (labelIds : List (List ℤ)) (t : String)
    (hvocab : ∀ tag ∈ (labels_ids f labelIds).headD [],
      tag = "O" ∨ tag.drop 2 = lastDashComponent tag)
    (hnoent : ∀ e ∈ collect_named_entities ((labels_ids f labelIds).headD []),
      e.e_type ≠ t) :
    t ∉ (unique_labels ((labels_ids f labelIds).headD [])).erase "O" := by
  intro hmem
  have hnodup : (unique_labels ((labels_ids f labelIds).headD [])).Nodup := by
    unfold unique_labels
    exact List.nodup_dedup _
  obtain ⟨hneO, hmem2⟩ := (List.Nodup.mem_erase_iff hnodup).mp hmem
  obtain ⟨tag, htag, hlast⟩ := (mem_unique_labels_iff _ _).mp hmem2
  rcases hvocab tag htag with hO | hdrop
  · subst hO
    exact hneO (by simpa [lastDashComponent] using hlast.symm)
  · have htagO : tag ≠ "O" := by
      intro h
      subst h
      exact hneO (by simpa [lastDashComponent] using hlast.symm)
    obtain ⟨e, he, hety⟩ := collect_covers_tokens _ tag htag htagO
    exact hnoent e he (by rw [hety, hdrop, hlast])

/-- C7 (witness): a concrete batch whose gold row is `["B-COURT", "O"]`: the
type `JUDGE`, having no gold entity, is excluded from the evaluator's tag
set. -/
theorem absent_type_excluded_witness :
    "JUDGE" ∉ (unique_labels ((labels_ids (fun i => if i = 0 then "B-COURT"
      else "I-COURT") [[0, -100]]).headD [])).erase "O" :=
  absent_type_excluded_from_unique_labels _ _ _ (by decide) (by decide)

/-! ## C10: a batch with no `O`-mapped gold position raises -/

/-- C10: whenever every gold label id maps into the real tag vocabulary
`labels_list` (so in particular no position is the ignore sentinel and none
maps to `"O"`), `unique_labels` contains no `"O"` entry and
`unique_labels.remove("O")` raises `ValueError` before any score is
produced. -/
theorem no_O_positions_raises (f : ℤ → String)
    (evaluate : List (List String) → List (List String) → List String →
      EvalResults)
    (preds : List (List (List ℚ))) (labelIds : List (List ℤ))
    (hvocab : ∀ g ∈ flat_labels labelIds, idToTag f g ∈ labels_list) :
    compute_metrics f evaluate preds labelIds =
      .error "ValueError: list.remove(x): x not in list" := by
  have hO : "O" ∉ unique_labels ((labels_ids f labelIds).headD []) := by
    rw [mem_unique_labels_iff]
    rintro ⟨tag, htag, hlast⟩
    rw [labels_ids, List.headD_cons] at htag
    rcases List.mem_map.mp htag with ⟨g, hg, rfl⟩
    exact labels_list_lastDash_ne_O _ (hvocab g hg) hlast
  have hO2 : "O" ∉ unique_labels ((flat_labels labelIds).map (idToTag f)) := by
    simpa [labels_ids] using hO
  simp [compute_metrics, remove_O, labels_ids, hO2]

/-- C10 (witness): a concrete gold batch `[[0]]` mapped entirely to
`"B-COURT"` makes `compute_metrics` raise. -/
theorem no_O_positions_raises_witness :
    compute_metrics (fun _ => "B-COURT")
      (fun _ _ _ => ⟨⟨0, 0⟩, ⟨0, 0⟩, ⟨0, 0⟩, ⟨0, 0⟩⟩)
      [[[(1 : ℚ)]]] [[0]] =
      .error "ValueError: list.remove(x): x not in list" :=
  no_O_positions_raises _ _ _ _ (by decide)

/-! ## C6: the epsilon-stabilized F1 values -/

/-- C6: whenever `compute_metrics` returns scores, each of the four returned
values is exactly `2·p·r / (p + r + 1e-9)` for that regime's
precision/recall; the formula yields exactly `0` when precision and recall
are both `0` (no NaN, no division error), and for any nonnegative precision
and recall the denominator is strictly positive, so every returned value is
a finite rational. -/
theorem f1_formula_and_degeneracy (f : ℤ → String)
    (evaluate : List (List String) → List (List String) → List String →
      EvalResults)
    (preds : List (List (List ℚ))) (labelIds : List (List ℤ))
    (hO : "O" ∈ unique_labels ((labels_ids f labelIds).headD [])) :
    compute_metrics f evaluate preds labelIds = .ok
      { f1_type_match := epsF1 ((evaluate (labels_ids f labelIds)
          (prediction_ids f preds) ((unique_labels
            ((labels_ids f labelIds).headD [])).erase "O")).ent_type)
        f1_part := epsF1 ((evaluate (labels_ids f labelIds)
          (prediction_ids f preds) ((unique_labels
            ((labels_ids f labelIds).headD [])).erase "O")).partMatch)
        f1_strict := epsF1 ((evaluate (labels_ids f labelIds)
          (prediction_ids f preds) ((unique_labels
            ((labels_ids f labelIds).headD [])).erase "O")).strictMatch)
        f1_exact := epsF1 ((evaluate (labels_ids f labelIds)
          (prediction_ids f preds) ((unique_labels
            ((labels_ids f labelIds).headD [])).erase "O")).exactMatch) } ∧
      (∀ pr : PR, pr.p = 0 → pr.r = 0 → epsF1 pr = 0) ∧
      (∀ pr : PR, 0 ≤ pr.p → 0 ≤ pr.r →
        0 < pr.p + pr.r + 1 / 1000000000) := by
  refine ⟨?_, ?_, ?_⟩
  · have hO2 : "O" ∈ unique_labels ((flat_labels labelIds).map (idToTag f)) := by
      simpa [labels_ids] using hO
    simp [compute_metrics, remove_O, labels_ids, hO2]
  · intro pr h1 h2
    simp [epsF1, h1, h2]
  · intro pr h1 h2
    positivity

/-- C6 (witness): the F1 formula outcome at a concrete degenerate batch
(all precisions and recalls zero). -/
theorem f1_formula_and_degeneracy_witness :
    compute_metrics (fun _ => "B-ORG")
      (fun _ _ _ => ⟨⟨0, 0⟩, ⟨0, 0⟩, ⟨0, 0⟩, ⟨0, 0⟩⟩)
      [[[(1 : ℚ)]]] [[-100]] = .ok
      { f1_type_match := epsF1 (((fun (_ : List (List String))
          (_ : List (List String)) (_ : List String) =>
          (⟨⟨0, 0⟩, ⟨0, 0⟩, ⟨0, 0⟩, ⟨0, 0⟩⟩ : EvalResults))
          (labels_ids (fun _ => "B-ORG") [[-100]])
          (prediction_ids (fun _ => "B-ORG") [[[(1 : ℚ)]]])
          ((unique_labels ((labels_ids (fun _ => "B-ORG")
            [[-100]]).headD [])).erase "O")).ent_type)
        f1_part := epsF1 ((⟨⟨0, 0⟩, ⟨0, 0⟩, ⟨0, 0⟩, ⟨0, 0⟩⟩ :
          EvalResults).partMatch)
        f1_strict := epsF1 ((⟨⟨0, 0⟩, ⟨0, 0⟩, ⟨0, 0⟩, ⟨0, 0⟩⟩ :
          EvalResults).strictMatch)
        f1_exact := epsF1 ((⟨⟨0, 0⟩, ⟨0, 0⟩, ⟨0, 0⟩, ⟨0, 0⟩⟩ :
          EvalResults).exactMatch) } ∧
      (∀ pr : PR, pr.p = 0 → pr.r = 0 → epsF1 pr = 0) ∧
      (∀ pr : PR, 0 ≤ pr.p → 0 ≤ pr.r →
        0 < pr.p + pr.r + 1 / 1000000000) :=
  f1_formula_and_degeneracy (fun _ => "B-ORG")
    (fun _ _ _ => ⟨⟨0, 0⟩, ⟨0, 0⟩, ⟨0, 0⟩, ⟨0, 0⟩⟩)
    [[[(1 : ℚ)]]] [[-100]] (by decide)

/-! ## C9: the whole batch is scored as one flat sequence -/

/-- C9: `compute_metrics` concatenates all per-example rows into one single
tag row — `prediction_ids` (resp. `labels_ids`) is a one-element outer list
whose only row is the flattening of the per-example tag rows — and the span
collection run on that single row can produce a span that crosses the
boundary between adjacent examples: for the two one-token examples
`["B-COURT"]` and `["I-COURT"]`, the flattened row yields the single entity
`(COURT, 0, 1)` spanning both examples, while each example alone yields its
own one-token entity. -/
theorem metrics_flatten_batch_single_sequence :
    (∀ (f : ℤ → String) (preds : List (List (List ℚ))),
      prediction_ids f preds =
        [(preds.map (fun ex => ex.map
          (fun scores => idToTag f (np_argmax scores : ℤ)))).flatten]) ∧
    (∀ (f : ℤ → String) (labelIds : List (List ℤ)),
      labels_ids f labelIds =
        [(labelIds.map (fun ex => ex.map (idToTag f))).flatten]) ∧
    collect_named_entities (["B-COURT"] ++ ["I-COURT"]) =
      [⟨"COURT", 0, 1⟩] ∧
    collect_named_entities ["B-COURT"] = [⟨"COURT", 0, 0⟩] ∧
    collect_named_entities ["I-COURT"] = [⟨"COURT", 0, 0⟩] := by
  refine ⟨?_, ?_, by decide, by decide, by decide⟩
  · intro f preds
    simp [prediction_ids, flat_predictions, argmaxed, List.map_flatten,
      List.map_map, Function.comp_def]
  · intro f labelIds
    rw [labels_ids, flat_labels, List.map_flatten]

/-! ## C3: decoding an all-masked example -/

/-- C3 (counterexample): inference-mode decoding on a batch whose single
example has an all-false attention mask does not return an empty or trivial
label sequence: `torchcrf` validation raises `ValueError` ("mask of the
first timestep must all be on") before any decoding happens. -/
theorem decode_all_masked_raises :
    crf_decode pZero2 [[[0, 0], [0, 0]]] [[false, false]] =
      .error "mask of the first timestep must all be on" := by
  rfl

/-- C3 (amended): whenever a batch passes the shape checks but contains an
example whose attention mask is entirely off, inference-mode decoding fails
fast with the validation error "mask of the first timestep must all be on";
no emission score is ever read. -/
theorem decode_all_masked_error (p : CRFParams) (em : List (List (List ℝ)))
    (mask : List (List Bool)) (row : List Bool)
    (hrow : row ∈ mask) (hall : ∀ b ∈ row, b = false)
    (hK : em.all (fun ex => ex.all (fun r => r.length = p.numTags)) = true)
    (hshape : em.map List.length = mask.map List.length) :
    crf_decode p em mask =
      .error "mask of the first timestep must all be on" := by
  have hhead : row.head?.getD false = false := by
    cases row with
    | nil => rfl
    | cons b bs => exact hall b (List.mem_cons_self b bs)
  have hex : ∃ x ∈ mask, x.head?.getD false = false := ⟨row, hrow, hhead⟩
  simp [crf_decode, crf_validate, tags_shape_ok, hK, hshape, hex]

/-- C3 (witness): the amended statement at a concrete two-example batch
whose first example is fully masked out. -/
theorem decode_all_masked_error_witness :
    crf_decode pZero2 [[[0, 0], [0, 0]], [[0, 0], [0, 0]]]
      [[false, false], [true, true]] =
      .error "mask of the first timestep must all be on" :=
  decode_all_masked_error pZero2 _ _ [false, false] (by decide) (by decide)
    (by decide) (by decide)

/-! ## C2: the training loss normalization -/

theorem logsumexp_pair_zero : logsumexp [(0 : ℝ), 0] = Real.log 2 := by
  norm_num [logsumexp, Real.exp_zero]

theorem logsumexp_pair_log2 :
    logsumexp [Real.log 2, Real.log 2] = Real.log 4 := by
  rw [logsumexp]
  norm_num [Real.exp_log]

theorem score_zero_len1 :
    compute_score pZero2 [[0, 0], [0, 0]] [0, 0] [true, false] = 0 := by
  norm_num [compute_score, pZero2, score_steps]

theorem score_zero_len2 :
    compute_score pZero2 [[0, 0], [0, 0]] [0, 0] [true, true] = 0 := by
  norm_num [compute_score, pZero2, score_steps]

theorem normalizer_len1 :
    compute_normalizer pZero2 [[0, 0], [0, 0]] [true, false] = Real.log 2 := by
  simp [compute_normalizer, pZero2, norm_loop, logsumexp_pair_zero]

theorem normalizer_len2 :
    compute_normalizer pZero2 [[0, 0], [0, 0]] [true, true] = Real.log 4 := by
  have hstep : norm_loop [[(0 : ℝ), 0], [0, 0]] [[0, 0]] [true] [0, 0] =
      [Real.log 2, Real.log 2] := by
    simp [norm_loop, norm_step, List.range_succ, logsumexp_pair_zero]
  simp [compute_normalizer, pZero2, hstep, logsumexp_pair_log2]

theorem ensemble_logits_zero :
    ensemble_logits netsZero idsTwo maskLen12 none = emZero22 := by
  norm_num [ensemble_logits, netsZero, cat_last, linear_apply, emZero22,
    List.range_succ]

theorem crf_forward_mean_eval :
    crf_forward pZero2 emZero22 tagsZero22 maskLen12 "mean" =
      .ok ((-Real.log 2 + -Real.log 4) / 2) := by
  have hval : crf_validate pZero2.numTags emZero22 (some tagsZero22)
      maskLen12 = .ok () := by rfl
  have h1 : crf_llh pZero2 [[0, 0], [0, 0]] [0, 0] [true, false] =
      -Real.log 2 := by
    rw [crf_llh, score_zero_len1, normalizer_len1]
    ring
  have h2 : crf_llh pZero2 [[0, 0], [0, 0]] [0, 0] [true, true] =
      -Real.log 4 := by
    rw [crf_llh, score_zero_len2, normalizer_len2]
    ring
  rw [crf_forward, hval]
  simp only [emZero22, tagsZero22, maskLen12, List.zip_cons_cons,
    List.zip_nil_right, List.zip_nil_left, List.map_cons, List.map_nil, h1, h2]
  norm_num
  exact fun h => absurd h (by decide)

/-- C2 (counterexample): a concrete training batch of two examples with
valid lengths 1 and 2 (all-zero emissions and gold tags, two labels).  The
tagger's returned loss is the batch mean `(log 2 + log 4) / 2` of the
per-example negative log-likelihoods, whereas a sequence-length-normalized
mean would be `(log 2 + log 4) / 3`; the two values differ, so the loss is
not sequence-length-normalized and examples of different valid lengths do
not contribute comparably. -/
theorem mean_loss_not_seq_len_normalized :
    model_forward pZero2 netsZero idsTwo maskLen12 none (some tagsZero22) =
      .ok (.trainMode ((Real.log 2 + Real.log 4) / 2) emZero22) ∧
    spec_seq_len_normalized_loss pZero2 emZero22 tagsZero22 maskLen12 =
      (Real.log 2 + Real.log 4) / 3 ∧
    (Real.log 2 + Real.log 4) / 2 ≠ (Real.log 2 + Real.log 4) / 3 := by
  have hlogpos : 0 < Real.log 2 + Real.log 4 := by
    have h2 : 0 < Real.log 2 := Real.log_pos (by norm_num)
    have h4 : 0 < Real.log 4 := Real.log_pos (by norm_num)
    linarith
  refine ⟨?_, ?_, ?_⟩
  · rw [model_forward]
    rw [ensemble_logits_zero, crf_forward_mean_eval]
    norm_num
    ring
  · have h1 : crf_llh pZero2 [[0, 0], [0, 0]] [0, 0] [true, false] =
        -Real.log 2 := by
      rw [crf_llh, score_zero_len1, normalizer_len1]
      ring
    have h2 : crf_llh pZero2 [[0, 0], [0, 0]] [0, 0] [true, true] =
        -Real.log 4 := by
      rw [crf_llh, score_zero_len2, normalizer_len2]
      ring
    simp only [spec_seq_len_normalized_loss, emZero22, tagsZero22, maskLen12,
      List.zip_cons_cons, List.zip_nil_right, List.zip_nil_left,
      List.map_cons, List.map_nil, h1, h2]
    norm_num
  · intro h
    rw [div_eq_div_iff (by norm_num) (by norm_num)] at h
    nlinarith

/-- C2 (amended): for every training batch that passes CRF validation, the
returned loss is the batch mean of the per-example negative log-likelihoods —
the summed NLL divided by the number of examples (`reduction="mean"` is
`llh.mean()`).  It is a mean, not a sum, but the divisor is the batch size,
not the sequence length, so examples of different valid length contribute
their full (length-dependent) NLL. -/
theorem training_loss_is_batch_mean (p : CRFParams) (nets : EnsembleNets)
    (ids : List (List ℤ)) (mask : List (List Bool))
    (tti : Option (List (List ℤ))) (tags : List (List ℕ))
    (hval : crf_validate p.numTags (ensemble_logits nets ids mask tti)
      (some tags) mask = .ok ()) :
    model_forward p nets ids mask tti (some tags) = .ok (.trainMode
      ((((List.zip (ensemble_logits nets ids mask tti)
            (List.zip tags mask)).map
          (fun x => -crf_llh p x.1 x.2.1 x.2.2)).sum) /
        ((List.zip (ensemble_logits nets ids mask tti)
            (List.zip tags mask)).length))
      (ensemble_logits nets ids mask tti)) := by
  rw [model_forward, crf_forward, hval]
  have hs : (("mean" : String) = "sum") = False := by
    simp
  have hm : (("mean" : String) = "mean") = True := by
    simp
  simp only [hs, hm, if_false, if_true, ite_false, ite_true]
  have hneg : ∀ (l : List ℝ) (n : ℝ), -(l.sum / n) = (l.map (fun x => -x)).sum / n := by
    intro l n
    rw [← neg_div, List.sum_neg]
  rw [hneg, List.map_map]
  simp [List.length_map, Function.comp_def]

/-- C2 (witness): the amended batch-mean statement instantiated at the
concrete two-example batch of valid lengths 1 and 2. -/
theorem training_loss_is_batch_mean_witness :
    model_forward pZero2 netsZero idsTwo maskLen12 none (some tagsZero22) =
      .ok (.trainMode
        ((((List.zip (ensemble_logits netsZero idsTwo maskLen12 none)
              (List.zip tagsZero22 maskLen12)).map
            (fun x => -crf_llh pZero2 x.1 x.2.1 x.2.2)).sum) /
          ((List.zip (ensemble_logits netsZero idsTwo maskLen12 none)
              (List.zip tagsZero22 maskLen12)).length))
        (ensemble_logits netsZero idsTwo maskLen12 none)) :=
  training_loss_is_batch_mean pZero2 netsZero idsTwo maskLen12 none tagsZero22
    (by rw [ensemble_logits_zero]; rfl)

/-! ## C4: Viterbi decoding — basic lemmas about the score maxima -/

theorem listMax_ge (l : List ℝ) (x : ℝ) (hx : x ∈ l) : x ≤ listMax l := by
  induction l with
  | nil => cases hx
  | cons a t ih =>
    cases t with
    | nil =>
      rcases List.mem_cons.mp hx with rfl | h
      · exact le_of_eq rfl
      · cases h
    | cons b m =>
      rcases List.mem_cons.mp hx with rfl | h
      · exact le_max_left _ _
      · exact le_trans (ih h) (le_max_right _ _)

theorem idxMax_lt (l : List ℝ) (hl : l ≠ []) : idxMax l < l.length := by
  induction l with
  | nil => exact absurd rfl hl
  | cons a t ih =>
    cases t with
    | nil => simp [idxMax]
    | cons b m =>
      by_cases h : listMax (b :: m) ≤ a
      · simp [idxMax, h]
      · simp only [idxMax, if_neg h, List.length_cons]
        exact Nat.succ_lt_succ (ih (by simp))

theorem getD_idxMax (l : List ℝ) (hl : l ≠ []) :
    l.getD (idxMax l) 0 = listMax l := by
  induction l with
  | nil => exact absurd rfl hl
  | cons a t ih =>
    cases t with
    | nil => rfl
    | cons b m =>
      by_cases h : listMax (b :: m) ≤ a
      · have h0 : idxMax (a :: b :: m) = 0 := by
          simp [idxMax, h]
        rw [h0]
        show a = listMax (a :: b :: m)
        exact (max_eq_left h).symm
      · have h1 : idxMax (a :: b :: m) = idxMax (b :: m) + 1 := by
          simp [idxMax, h]
        rw [h1]
        show (b :: m).getD (idxMax (b :: m)) 0 = _
        rw [ih (by simp)]
        exact (max_eq_right (le_of_lt (lt_of_not_le h))).symm

theorem getD_range_map {α : Type} (K t : ℕ) (f : ℕ → α) (d : α) (ht : t < K) :
    ((List.range K).map f).getD t d = f t := by
  rw [List.getD_eq_getElem _ _ (by simpa using ht)]
  simp

theorem list_getD_mem {α : Type} (l : List α) (i : ℕ) (d : α)
    (hi : i < l.length) : l.getD i d ∈ l := by
  rw [List.getD_eq_getElem _ _ hi]
  exact l.getElem_mem hi

theorem getD_zipWith_add (a b : List ℝ) (i : ℕ) (ha : i < a.length)
    (hb : i < b.length) :
    (List.zipWith (· + ·) a b).getD i 0 = a.getD i 0 + b.getD i 0 := by
  rw [List.getD_eq_getElem _ _ (by simp [List.length_zipWith]; omega),
    List.getD_eq_getElem _ _ ha, List.getD_eq_getElem _ _ hb]
  simp

theorem lastTag_cons (s t : ℕ) (y : List ℕ) :
    lastTag s (t :: y) = lastTag t y := by
  rw [lastTag, lastTag, List.getLastD_cons]

theorem lastTag_mem (s : ℕ) (y : List ℕ) : lastTag s y ∈ s :: y :=
  List.getLastD_mem_cons y s

theorem vit_scores_length (trans : List (List ℝ)) (alpha : List ℝ)
    (e : List ℝ) (t : ℕ) : (vit_scores trans alpha e t).length = alpha.length := by
  simp [vit_scores]

theorem vit_scores_getD (trans : List (List ℝ)) (alpha : List ℝ) (e : List ℝ)
    (t s : ℕ) (hs : s < alpha.length) :
    (vit_scores trans alpha e t).getD s 0 =
      alpha.getD s 0 + (trans.getD s []).getD t 0 + e.getD t 0 :=
  getD_range_map _ _ _ _ hs

theorem vit_next_length (trans : List (List ℝ)) (alpha : List ℝ)
    (e : List ℝ) : (vit_next trans alpha e).length = alpha.length := by
  simp [vit_next]

theorem vit_next_getD (trans : List (List ℝ)) (alpha : List ℝ) (e : List ℝ)
    (t : ℕ) (ht : t < alpha.length) :
    (vit_next trans alpha e).getD t 0 = listMax (vit_scores trans alpha e t) :=
  getD_range_map _ _ _ _ ht

theorem vit_idx_getD (trans : List (List ℝ)) (alpha : List ℝ) (e : List ℝ)
    (t : ℕ) (ht : t < alpha.length) :
    (vit_idx trans alpha e).getD t 0 = idxMax (vit_scores trans alpha e t) :=
  getD_range_map _ _ _ _ ht

theorem viterbi_loop_fst_length (trans : List (List ℝ)) (es : List (List ℝ))
    (ms : List Bool) (alpha : List ℝ) :
    (viterbi_loop trans es ms alpha).1.length = alpha.length := by
  induction es generalizing ms alpha with
  | nil => simp [viterbi_loop]
  | cons e es ih =>
    cases ms with
    | nil => simp [viterbi_loop]
    | cons m ms =>
      show (viterbi_loop trans es ms
        (if m then vit_next trans alpha e else alpha)).1.length = _
      rw [ih]
      cases m with
      | true => simp [vit_next_length]
      | false => rfl

theorem viterbi_loop_snd_length (trans : List (List ℝ)) (es : List (List ℝ))
    (ms : List Bool) (alpha : List ℝ) :
    (viterbi_loop trans es ms alpha).2.length = min es.length ms.length := by
  induction es generalizing ms alpha with
  | nil => simp [viterbi_loop]
  | cons e es ih =>
    cases ms with
    | nil => simp [viterbi_loop]
    | cons m ms =>
      show ((vit_idx trans alpha e) ::
        (viterbi_loop trans es ms
          (if m then vit_next trans alpha e else alpha)).2).length = _
      rw [List.length_cons, ih]
      simp [Nat.succ_min_succ]

theorem backtrack_length (l : List (List ℕ)) (t : ℕ) :
    (backtrack l t).length = l.length + 1 := by
  induction l generalizing t with
  | nil => rfl
  | cons a rest ih => simp [backtrack, ih]

theorem backtrack_ne_nil (l : List (List ℕ)) (t : ℕ) : backtrack l t ≠ [] := by
  cases l with
  | nil => simp [backtrack]
  | cons ix rest => simp [backtrack]

theorem headD_append_of_ne_nil {α : Type} (l l2 : List α) (d : α)
    (hl : l ≠ []) : (l ++ l2).headD d = l.headD d := by
  cases l with
  | nil => exact absurd rfl hl
  | cons a t => rfl

theorem backtrack_append_single (l : List (List ℕ)) (ix : List ℕ) (t : ℕ) :
    backtrack (l ++ [ix]) t =
      ix.getD ((backtrack l t).headD 0) 0 :: backtrack l t := by
  induction l generalizing t with
  | nil => rfl
  | cons a rest ih =>
    show backtrack (rest ++ [ix]) (a.getD t 0) ++ [t] = _
    rw [ih (a.getD t 0)]
    show _ = ix.getD ((backtrack rest (a.getD t 0) ++ [t]).headD 0) 0 ::
      (backtrack rest (a.getD t 0) ++ [t])
    rw [headD_append_of_ne_nil _ _ _ (backtrack_ne_nil _ _)]
    rfl

/-- Upper-bound invariant of the Viterbi recursion under a full mask: the
final score vector dominates the score of every path continuation. -/
theorem viterbi_ub (trans : List (List ℝ)) (es : List (List ℝ))
    (alpha : List ℝ) (s : ℕ) (hs : s < alpha.length) (y : List ℕ)
    (hy : y.length = es.length) (hyK : ∀ u ∈ y, u < alpha.length) :
    alpha.getD s 0 + trans_sum trans es y s ≤
      (viterbi_loop trans es (List.replicate es.length true) alpha).1.getD
        (lastTag s y) 0 := by
  induction es generalizing alpha s y with
  | nil =>
    have hnil : y = [] := List.eq_nil_of_length_eq_zero hy
    subst hnil
    simp [viterbi_loop, trans_sum, lastTag]
  | cons e es ih =>
    cases y with
    | nil => simp at hy
    | cons t y =>
      have hyl : y.length = es.length := by simpa using hy
      have htK : t < alpha.length := hyK t (by simp)
      have hyK2 : ∀ u ∈ y, u < (vit_next trans alpha e).length := by
        rw [vit_next_length]
        exact fun u hu => hyK u (by simp [hu])
      have htK2 : t < (vit_next trans alpha e).length := by
        rw [vit_next_length]
        exact htK
      have hstep : alpha.getD s 0 + (trans.getD s []).getD t 0 + e.getD t 0 ≤
          (vit_next trans alpha e).getD t 0 := by
        rw [vit_next_getD _ _ _ _ htK]
        refine listMax_ge _ _ ?_
        rw [vit_scores]
        exact List.mem_map.mpr ⟨s, List.mem_range.mpr hs, rfl⟩
      have hrest := ih (vit_next trans alpha e) t htK2 y hyl hyK2
      rw [lastTag_cons]
      show alpha.getD s 0 + trans_sum trans (e :: es) (t :: y) s ≤
        (viterbi_loop trans es (List.replicate es.length true)
          (vit_next trans alpha e)).1.getD (lastTag t y) 0
      rw [trans_sum]
      linarith

/-- Achievability invariant: backtracking from any tag `t` through the
history of a full-mask Viterbi run produces a path whose score is exactly
the final score-vector entry at `t`. -/
theorem viterbi_ach (trans : List (List ℝ)) (es : List (List ℝ))
    (alpha : List ℝ) (K : ℕ) (halpha : alpha.length = K) (hK : 0 < K)
    (t : ℕ) (ht : t < K) :
    ∃ s, s < K ∧ ∃ y, y.length = es.length ∧ (∀ u ∈ y, u < K) ∧
      lastTag s y = t ∧
      backtrack (viterbi_loop trans es (List.replicate es.length true)
        alpha).2.reverse t = s :: y ∧
      alpha.getD s 0 + trans_sum trans es y s =
        (viterbi_loop trans es (List.replicate es.length true) alpha).1.getD
          t 0 := by
  induction es generalizing alpha t with
  | nil =>
    refine ⟨t, ht, [], rfl, by simp, rfl, ?_, ?_⟩
    · simp [viterbi_loop, backtrack]
    · simp [viterbi_loop, trans_sum]
  | cons e es ih =>
    have halpha2 : (vit_next trans alpha e).length = K := by
      rw [vit_next_length, halpha]
    obtain ⟨s2, hs2, y2, hy2len, hy2K, hy2last, hy2bt, hy2score⟩ :=
      ih (vit_next trans alpha e) halpha2 t ht
    have hs2a : s2 < alpha.length := by
      rw [halpha]
      exact hs2
    have hta : t < (vit_next trans alpha e).length := by
      rw [halpha2]
      exact ht
    have hvsne : vit_scores trans alpha e s2 ≠ [] := by
      have := vit_scores_length trans alpha e s2
      intro hnil
      rw [hnil] at this
      simp [halpha] at this
      omega
    refine ⟨(vit_idx trans alpha e).getD s2 0, ?_, s2 :: y2, by simp [hy2len],
      ?_, ?_, ?_, ?_⟩
    · rw [vit_idx_getD _ _ _ _ hs2a]
      have := idxMax_lt _ hvsne
      rw [vit_scores_length, halpha] at this
      exact this
    · intro u hu
      rcases List.mem_cons.mp hu with rfl | h
      · exact hs2
      · exact hy2K u h
    · rw [lastTag_cons]
      exact hy2last
    · show backtrack ((vit_idx trans alpha e ::
        (viterbi_loop trans es (List.replicate es.length true)
          (vit_next trans alpha e)).2).reverse) t = _
      rw [List.reverse_cons, backtrack_append_single, hy2bt]
      rfl
    · show alpha.getD ((vit_idx trans alpha e).getD s2 0) 0 +
        trans_sum trans (e :: es) (s2 :: y2)
          ((vit_idx trans alpha e).getD s2 0) =
        (viterbi_loop trans es (List.replicate es.length true)
          (vit_next trans alpha e)).1.getD t 0
      rw [trans_sum, ← hy2score]
      have hkey : alpha.getD ((vit_idx trans alpha e).getD s2 0) 0 +
          (trans.getD ((vit_idx trans alpha e).getD s2 0) []).getD s2 0 +
          e.getD s2 0 = (vit_next trans alpha e).getD s2 0 := by
        rw [vit_next_getD _ _ _ _ hs2a, vit_idx_getD _ _ _ _ hs2a]
        have hlt : idxMax (vit_scores trans alpha e s2) <
            alpha.length := by
          have := idxMax_lt _ hvsne
          rwa [vit_scores_length] at this
        rw [← vit_scores_getD trans alpha e s2 _ hlt]
        exact getD_idxMax _ hvsne
      linarith

/-- Full-mask Viterbi optimality for one example `e0 :: es`: the backtracked
path attains the maximal total path score among all candidate tag
sequences. -/
theorem viterbi_full_opt (p : CRFParams) (e0 : List ℝ) (es : List (List ℝ))
    (hcrf : CRFShape p) (hK : 0 < p.numTags) (he0 : e0.length = p.numTags) :
    ∃ path,
      backtrack (viterbi_loop p.transitions es
          (List.replicate es.length true)
          (List.zipWith (· + ·) p.start_transitions e0)).2.reverse
        (idxMax (List.zipWith (· + ·)
          (viterbi_loop p.transitions es (List.replicate es.length true)
            (List.zipWith (· + ·) p.start_transitions e0)).1
          p.end_transitions)) = path ∧
      path.length = es.length + 1 ∧ (∀ u ∈ path, u < p.numTags) ∧
      ∀ y, y.length = es.length + 1 → (∀ u ∈ y, u < p.numTags) →
        path_score p (e0 :: es) y ≤ path_score p (e0 :: es) path := by
  obtain ⟨hst, hen, htr, _⟩ := hcrf
  have ha0 : (List.zipWith (· + ·) p.start_transitions e0).length =
      p.numTags := by
    rw [List.length_zipWith, hst, he0, min_self]
  have hfst : (viterbi_loop p.transitions es (List.replicate es.length true)
      (List.zipWith (· + ·) p.start_transitions e0)).1.length = p.numTags := by
    rw [viterbi_loop_fst_length, ha0]
  have hfin : (List.zipWith (· + ·)
      (viterbi_loop p.transitions es (List.replicate es.length true)
        (List.zipWith (· + ·) p.start_transitions e0)).1
      p.end_transitions).length = p.numTags := by
    rw [List.length_zipWith, hfst, hen, min_self]
  have hfinne : (List.zipWith (· + ·)
      (viterbi_loop p.transitions es (List.replicate es.length true)
        (List.zipWith (· + ·) p.start_transitions e0)).1
      p.end_transitions) ≠ [] := by
    intro h
    rw [h] at hfin
    simp at hfin
    omega
  have htL : idxMax (List.zipWith (· + ·)
      (viterbi_loop p.transitions es (List.replicate es.length true)
        (List.zipWith (· + ·) p.start_transitions e0)).1
      p.end_transitions) < p.numTags := by
    have := idxMax_lt _ hfinne
    rwa [hfin] at this
  obtain ⟨s, hs, y, hylen, hyK, hylast, hybt, hyscore⟩ :=
    viterbi_ach p.transitions es
      (List.zipWith (· + ·) p.start_transitions e0) p.numTags ha0 hK _ htL
  refine ⟨s :: y, hybt, by simp [hylen], ?_, ?_⟩
  · intro u hu
    rcases List.mem_cons.mp hu with rfl | h
    · exact hs
    · exact hyK u h
  · intro cand hclen hcK
    cases cand with
    | nil => simp at hclen
    | cons t0 ts =>
      have htslen : ts.length = es.length := by simpa using hclen
      have ht0 : t0 < p.numTags := hcK t0 (by simp)
      have htsK : ∀ u ∈ ts, u < p.numTags := fun u hu => hcK u (by simp [hu])
      have hlastc : lastTag t0 ts < p.numTags := by
        rcases List.mem_cons.mp (lastTag_mem t0 ts) with h | h
        · rw [h]
          exact ht0
        · exact htsK _ h
      have hps_cand : path_score p (e0 :: es) (t0 :: ts) =
          p.start_transitions.getD t0 0 + e0.getD t0 0 +
          trans_sum p.transitions es ts t0 +
          p.end_transitions.getD (lastTag t0 ts) 0 := by
        rw [path_score]
        rw [show (t0 :: ts).getLastD 0 = lastTag t0 ts from
          (List.getLastD_cons 0 t0 ts).trans rfl]
      have hps_path : path_score p (e0 :: es) (s :: y) =
          p.start_transitions.getD s 0 + e0.getD s 0 +
          trans_sum p.transitions es y s +
          p.end_transitions.getD (lastTag s y) 0 := by
        rw [path_score]
        rw [show (s :: y).getLastD 0 = lastTag s y from
          (List.getLastD_cons 0 s y).trans rfl]
      have ha0get : ∀ u, u < p.numTags →
          (List.zipWith (· + ·) p.start_transitions e0).getD u 0 =
            p.start_transitions.getD u 0 + e0.getD u 0 := by
        intro u hu
        exact getD_zipWith_add _ _ _ (by rw [hst]; exact hu)
          (by rw [he0]; exact hu)
      have hfinget : ∀ u, u < p.numTags →
          (List.zipWith (· + ·)
            (viterbi_loop p.transitions es (List.replicate es.length true)
              (List.zipWith (· + ·) p.start_transitions e0)).1
            p.end_transitions).getD u 0 =
          (viterbi_loop p.transitions es (List.replicate es.length true)
            (List.zipWith (· + ·) p.start_transitions e0)).1.getD u 0 +
            p.end_transitions.getD u 0 := by
        intro u hu
        exact getD_zipWith_add _ _ _ (by rw [hfst]; exact hu)
          (by rw [hen]; exact hu)
      have hub := viterbi_ub p.transitions es
        (List.zipWith (· + ·) p.start_transitions e0) t0
        (by rw [ha0]; exact ht0) ts htslen
        (fun u hu => by rw [ha0]; exact htsK u hu)
      have hchain : path_score p (e0 :: es) (t0 :: ts) ≤
          (List.zipWith (· + ·)
            (viterbi_loop p.transitions es (List.replicate es.length true)
              (List.zipWith (· + ·) p.start_transitions e0)).1
            p.end_transitions).getD (lastTag t0 ts) 0 := by
        rw [hps_cand, hfinget _ hlastc]
        have := ha0get t0 ht0
        linarith
      have hmax : (List.zipWith (· + ·)
          (viterbi_loop p.transitions es (List.replicate es.length true)
            (List.zipWith (· + ·) p.start_transitions e0)).1
          p.end_transitions).getD (lastTag t0 ts) 0 ≤
          (List.zipWith (· + ·)
            (viterbi_loop p.transitions es (List.replicate es.length true)
              (List.zipWith (· + ·) p.start_transitions e0)).1
            p.end_transitions).getD (idxMax (List.zipWith (· + ·)
              (viterbi_loop p.transitions es (List.replicate es.length true)
                (List.zipWith (· + ·) p.start_transitions e0)).1
              p.end_transitions)) 0 := by
        rw [getD_idxMax _ hfinne]
        exact listMax_ge _ _ (list_getD_mem _ _ _ (by rw [hfin]; exact hlastc))
      have hpath_val : path_score p (e0 :: es) (s :: y) =
          (List.zipWith (· + ·)
            (viterbi_loop p.transitions es (List.replicate es.length true)
              (List.zipWith (· + ·) p.start_transitions e0)).1
            p.end_transitions).getD (idxMax (List.zipWith (· + ·)
              (viterbi_loop p.transitions es (List.replicate es.length true)
                (List.zipWith (· + ·) p.start_transitions e0)).1
              p.end_transitions)) 0 := by
        rw [hps_path, hylast, hfinget _ htL, ← hyscore, ha0get s hs]
      rw [hpath_val]
      exact le_trans hchain hmax

theorem viterbi_loop_append_fst (trans : List (List ℝ))
    (es1 : List (List ℝ)) (ms1 : List Bool) (es2 : List (List ℝ))
    (ms2 : List Bool) (alpha : List ℝ) (h : es1.length = ms1.length) :
    (viterbi_loop trans (es1 ++ es2) (ms1 ++ ms2) alpha).1 =
      (viterbi_loop trans es2 ms2
        (viterbi_loop trans es1 ms1 alpha).1).1 := by
  induction es1 generalizing ms1 alpha with
  | nil =>
    have : ms1 = [] := List.eq_nil_of_length_eq_zero (by simpa using h.symm)
    subst this
    rfl
  | cons e es1 ih =>
    cases ms1 with
    | nil => simp at h
    | cons m ms1 =>
      show (viterbi_loop trans (es1 ++ es2) (ms1 ++ ms2)
        (if m then vit_next trans alpha e else alpha)).1 = _
      rw [ih ms1 _ (by simpa using h)]
      rfl

theorem viterbi_loop_append_snd (trans : List (List ℝ))
    (es1 : List (List ℝ)) (ms1 : List Bool) (es2 : List (List ℝ))
    (ms2 : List Bool) (alpha : List ℝ) (h : es1.length = ms1.length) :
    (viterbi_loop trans (es1 ++ es2) (ms1 ++ ms2) alpha).2 =
      (viterbi_loop trans es1 ms1 alpha).2 ++
        (viterbi_loop trans es2 ms2
          (viterbi_loop trans es1 ms1 alpha).1).2 := by
  induction es1 generalizing ms1 alpha with
  | nil =>
    have : ms1 = [] := List.eq_nil_of_length_eq_zero (by simpa using h.symm)
    subst this
    rfl
  | cons e es1 ih =>
    cases ms1 with
    | nil => simp at h
    | cons m ms1 =>
      show vit_idx trans alpha e ::
        (viterbi_loop trans (es1 ++ es2) (ms1 ++ ms2)
          (if m then vit_next trans alpha e else alpha)).2 = _
      rw [ih ms1 _ (by simpa using h)]
      rfl

theorem viterbi_loop_false_fst (trans : List (List ℝ)) (es : List (List ℝ))
    (ms : List Bool) (alpha : List ℝ) (hms : ∀ b ∈ ms, b = false) :
    (viterbi_loop trans es ms alpha).1 = alpha := by
  induction es generalizing ms alpha with
  | nil => simp [viterbi_loop]
  | cons e es ih =>
    cases ms with
    | nil => simp [viterbi_loop]
    | cons m ms =>
      have hm : m = false := hms m (by simp)
      subst hm
      show (viterbi_loop trans es ms
        (if false then vit_next trans alpha e else alpha)).1 = alpha
      exact ih ms alpha (fun b hb => hms b (by simp [hb]))

theorem contig_structure (m : List Bool) (hc : contig m = true) :
    m = List.replicate (m.count true) true ++
      List.replicate (m.length - m.count true) false := by
  induction m with
  | nil => rfl
  | cons b ms ih =>
    cases b with
    | true =>
      have hms : contig ms = true := hc
      have harith : (true :: ms).length - (ms.count true + 1) =
          ms.length - ms.count true := by
        simp
      rw [List.count_cons_self, harith, List.replicate_succ,
        List.cons_append]
      congr 1
      exact ih hms
    | false =>
      have hall : ∀ x ∈ ms, x = false := by
        have : ms.all (fun b => b = false) = true := hc
        simpa [List.all_eq_true] using this
      have hms0 : ms.count true = 0 :=
        List.count_eq_zero.mpr (fun hmem => by
          have := hall true hmem
          simp at this)
      have hcount : (false :: ms).count true = 0 := by
        rw [List.count_cons]
        simp [hms0]
      rw [hcount, List.replicate_zero, List.nil_append, List.length_cons,
        Nat.sub_zero, List.replicate_succ]
      congr 1
      exact List.eq_replicate_of_mem hall

/-- Viterbi decoding of one example under a left-contiguous attention mask
with `n` valid positions: the decoded sequence has length exactly `n`, all
its tags are in range, and it attains the maximal path score over the `n`
valid positions among all candidate tag sequences of length `n`. -/
theorem viterbi_decode_one_opt (p : CRFParams) (em : List (List ℝ))
    (m : List Bool) (hcrf : CRFShape p) (hK : 0 < p.numTags)
    (hrows : ∀ r ∈ em, r.length = p.numTags)
    (hlen : em.length = m.length)
    (hcontig : contig m = true) (hhead : m.headD false = true) :
    (viterbi_decode_one p em m).length = m.count true ∧
    (∀ u ∈ viterbi_decode_one p em m, u < p.numTags) ∧
    ∀ y, y.length = m.count true → (∀ u ∈ y, u < p.numTags) →
      path_score p (em.take (m.count true)) y ≤
        path_score p (em.take (m.count true)) (viterbi_decode_one p em m) := by
  cases m with
  | nil => simp at hhead
  | cons b ms =>
  cases em with
  | nil => simp at hlen
  | cons e0 es =>
  have hb : b = true := by simpa using hhead
  subst hb
  have hmscontig : contig ms = true := hcontig
  have hcount : (true :: ms).count true = ms.count true + 1 :=
    List.count_cons_self _ _
  have hc_le : ms.count true ≤ ms.length := List.count_le_length _ _
  have heslen : es.length = ms.length := by simpa using hlen
  have hes1len : (es.take (ms.count true)).length = ms.count true := by
    rw [List.length_take]
    omega
  have hdec : viterbi_decode_one p (e0 :: es) (true :: ms) =
      backtrack (((viterbi_loop p.transitions es ms
        (List.zipWith (· + ·) p.start_transitions e0)).2.take
          (ms.count true)).reverse)
        (idxMax (List.zipWith (· + ·)
          (viterbi_loop p.transitions es ms
            (List.zipWith (· + ·) p.start_transitions e0)).1
          p.end_transitions)) := by
    show backtrack (((viterbi_loop p.transitions es (true :: ms).tail
        (List.zipWith (· + ·) p.start_transitions e0)).2.take
          ((true :: ms).count true - 1)).reverse) _ = _
    rw [hcount, Nat.add_sub_cancel]
    rfl
  obtain ⟨n, hn⟩ : ∃ n, ms.count true = n := ⟨_, rfl⟩
  rw [hn] at hcount hc_le hes1len hdec
  have hstruct : ms = List.replicate n true ++
      List.replicate (ms.length - n) false := by
    rw [← hn]
    exact contig_structure ms hmscontig
  have hmsfalse : ∀ x ∈ List.replicate (ms.length - n) false,
      x = false := fun x hx => List.eq_of_mem_replicate hx
  have hlens1 : (es.take n).length = (List.replicate n true).length := by
    rw [hes1len, List.length_replicate]
  have hfst : (viterbi_loop p.transitions es ms
      (List.zipWith (· + ·) p.start_transitions e0)).1 =
      (viterbi_loop p.transitions (es.take n)
        (List.replicate n true)
        (List.zipWith (· + ·) p.start_transitions e0)).1 := by
    conv_lhs =>
      rw [← List.take_append_drop n es, hstruct]
    rw [viterbi_loop_append_fst _ _ _ _ _ _ hlens1]
    exact viterbi_loop_false_fst _ _ _ _ hmsfalse
  have hsnd : (viterbi_loop p.transitions es ms
      (List.zipWith (· + ·) p.start_transitions e0)).2.take n =
      (viterbi_loop p.transitions (es.take n)
        (List.replicate n true)
        (List.zipWith (· + ·) p.start_transitions e0)).2 := by
    conv_lhs =>
      rw [← List.take_append_drop n es, hstruct]
    rw [viterbi_loop_append_snd _ _ _ _ _ _ hlens1]
    apply List.take_left'
    rw [viterbi_loop_snd_length, hes1len, List.length_replicate, min_self]
  have hrep : List.replicate n true =
      List.replicate (es.take n).length true := by
    rw [hes1len]
  obtain ⟨path, hbt, hplen, hpK, hopt⟩ :=
    viterbi_full_opt p e0 (es.take n) hcrf hK (hrows e0 (by simp))
  have hdec2 : viterbi_decode_one p (e0 :: es) (true :: ms) = path := by
    rw [hdec, hsnd, hfst, hrep]
    exact hbt
  have htake : (e0 :: es).take ((true :: ms).count true) =
      e0 :: es.take n := by
    rw [hcount]
    rfl
  rw [hdec2, htake, hcount]
  refine ⟨by rw [hplen, hes1len], hpK, ?_⟩
  intro y hylen hyK
  exact hopt y (by rw [hylen, hes1len]) hyK

/-- C4: for every batch with consistent shapes (emission rows of width
`num_tags ≥ 1`, mask of the same first two dimensions, left-contiguous
per-example masks with the first position on), the tagger's forward pass
returns the pair (negative batch-mean CRF log-likelihood of the gold
sequence, emission logits) exactly when gold labels are supplied; and
exactly when gold labels are absent it returns the CRF-decoded label-id
sequence per example, where each decoded sequence covers precisely the
mask-on positions, uses only valid label ids, and attains the maximal CRF
path score over the valid prefix — the most likely label sequence. -/
theorem forward_dispatch_and_viterbi (p : CRFParams) (nets : EnsembleNets)
    (ids : List (List ℤ)) (mask : List (List Bool))
    (tti : Option (List (List ℤ))) (labels : Option (List (List ℕ)))
    (hcrf : CRFShape p) (hK : 0 < p.numTags)
    (hrows : ∀ ex ∈ ensemble_logits nets ids mask tti, ∀ r ∈ ex,
      r.length = p.numTags)
    (hlen : (ensemble_logits nets ids mask tti).map List.length =
      mask.map List.length)
    (hmask : ∀ row ∈ mask, contig row = true ∧ row.headD false = true)
    (htags : ∀ tg, labels = some tg →
      (ensemble_logits nets ids mask tti).map List.length =
        tg.map List.length) :
    (∀ tg, labels = some tg →
      model_forward p nets ids mask tti labels = .ok (.trainMode
        (-((((List.zip (ensemble_logits nets ids mask tti)
              (List.zip tg mask)).map
            (fun x => crf_llh p x.1 x.2.1 x.2.2)).sum) /
          ((List.zip (ensemble_logits nets ids mask tti)
              (List.zip tg mask)).length)))
        (ensemble_logits nets ids mask tti))) ∧
    (labels = none →
      model_forward p nets ids mask tti labels = .ok (.inferMode
        ((List.zip (ensemble_logits nets ids mask tti) mask).map
          (fun x => viterbi_decode_one p x.1 x.2))) ∧
      ∀ i, i < mask.length →
        ((List.zip (ensemble_logits nets ids mask tti) mask).map
            (fun x => viterbi_decode_one p x.1 x.2)).getD i [] =
          viterbi_decode_one p
            ((ensemble_logits nets ids mask tti).getD i [])
            (mask.getD i []) ∧
        (viterbi_decode_one p ((ensemble_logits nets ids mask tti).getD i [])
            (mask.getD i [])).length = (mask.getD i []).count true ∧
        (∀ u ∈ viterbi_decode_one p
            ((ensemble_logits nets ids mask tti).getD i [])
            (mask.getD i []), u < p.numTags) ∧
        ∀ y, y.length = (mask.getD i []).count true →
          (∀ u ∈ y, u < p.numTags) →
          path_score p
              (((ensemble_logits nets ids mask tti).getD i []).take
                ((mask.getD i []).count true)) y ≤
            path_score p
              (((ensemble_logits nets ids mask tti).getD i []).take
                ((mask.getD i []).count true))
              (viterbi_decode_one p
                ((ensemble_logits nets ids mask tti).getD i [])
                (mask.getD i []))) := by
  have hLlen : (ensemble_logits nets ids mask tti).length = mask.length := by
    have h := congrArg List.length hlen
    simpa using h
  have h1 : (ensemble_logits nets ids mask tti).all
      (fun ex => ex.all fun r => r.length = p.numTags) = true := by
    simp only [List.all_eq_true, decide_eq_true_eq]
    exact hrows
  have h2 : mask.all (fun mrow => mrow.headD false) = true := by
    simp only [List.all_eq_true]
    exact fun row hrow => (hmask row hrow).2
  constructor
  · intro tg htg
    subst htg
    have h3 : List.map List.length mask = List.map List.length tg := by
      rw [← hlen]
      exact htags tg rfl
    have h4 : ¬ ∃ x ∈ mask, x.head?.getD false = false := by
      rintro ⟨x, hx, hfx⟩
      have hx2 := (hmask x hx).2
      rw [List.headD_eq_head?_getD] at hx2
      rw [hx2] at hfx
      cases hfx
    have hvalA : crf_validate p.numTags (ensemble_logits nets ids mask tti)
        (some tg) mask = .ok () := by
      simp [crf_validate, tags_shape_ok, h1, hlen, h3, h4]
    rw [model_forward, crf_forward, hvalA]
    have hs : (("mean" : String) = "sum") = False := by
      simp
    have hm : (("mean" : String) = "mean") = True := by
      simp
    simp only [hs, hm, if_false, if_true, ite_false, ite_true,
      List.length_map]
  · intro hnone
    subst hnone
    have h2b : ∀ x ∈ mask, x.head?.getD false = true := by
      intro x hx
      have hx2 := (hmask x hx).2
      rwa [List.headD_eq_head?_getD] at hx2
    have hvalB : crf_validate p.numTags (ensemble_logits nets ids mask tti)
        none mask = .ok () := by
      simp [crf_validate, tags_shape_ok, h1, hlen]
      exact h2b
    constructor
    · rw [model_forward, crf_decode, hvalB]
    · intro i hi
      have hiL : i < (ensemble_logits nets ids mask tti).length := by
        rw [hLlen]
        exact hi
      have hexm : ((ensemble_logits nets ids mask tti).getD i []).length =
          (mask.getD i []).length := by
        have h := congrArg (fun t => t.getD i 0) hlen
        simp only at h
        rw [List.getD_eq_getElem _ _ (by simpa using hiL),
          List.getD_eq_getElem _ _ (by simpa using hi)] at h
        simp only [List.getElem_map] at h
        rw [List.getD_eq_getElem _ _ hiL, List.getD_eq_getElem _ _ hi]
        exact h
      have hexmem : (ensemble_logits nets ids mask tti).getD i [] ∈
          ensemble_logits nets ids mask tti := list_getD_mem _ _ _ hiL
      have hmmem : mask.getD i [] ∈ mask := list_getD_mem _ _ _ hi
      have hopt := viterbi_decode_one_opt p
        ((ensemble_logits nets ids mask tti).getD i []) (mask.getD i [])
        hcrf hK (hrows _ hexmem) hexm (hmask _ hmmem).1 (hmask _ hmmem).2
      refine ⟨?_, hopt.1, hopt.2.1, hopt.2.2⟩
      have hzlen : (List.zip (ensemble_logits nets ids mask tti)
          mask).length = mask.length := by
        rw [List.length_zip, hLlen, min_self]
      rw [List.getD_eq_getElem _ _ (by rw [List.length_map, hzlen]; exact hi),
        List.getElem_map, List.getElem_zip, List.getD_eq_getElem _ _ hiL,
        List.getD_eq_getElem _ _ hi]

/-- C4 (witness): the dispatch and mask-respecting decode length at the
concrete two-example batch (valid lengths 1 and 2, two labels). -/
theorem forward_dispatch_and_viterbi_witness :
    model_forward pZero2 netsZero idsTwo maskLen12 none none =
      .ok (.inferMode
        ((List.zip (ensemble_logits netsZero idsTwo maskLen12 none)
          maskLen12).map
          (fun x => viterbi_decode_one pZero2 x.1 x.2))) ∧
    (viterbi_decode_one pZero2
      ((ensemble_logits netsZero idsTwo maskLen12 none).getD 0 [])
      (maskLen12.getD 0 [])).length = (maskLen12.getD 0 []).count true := by
  have h := forward_dispatch_and_viterbi pZero2 netsZero idsTwo maskLen12
    none none ⟨by decide, by decide, by decide, by decide⟩ (by decide)
    (by rw [ensemble_logits_zero]; decide)
    (by rw [ensemble_logits_zero]; decide)
    (by decide)
    (fun tg h => Option.noConfusion h)
  obtain ⟨-, hB⟩ := h
  obtain ⟨hdisp, hper⟩ := hB rfl
  exact ⟨hdisp, (hper 0 (by decide)).2.1⟩

/-! ## Forward-algorithm correctness: the CRF normalizer is the log of the
partition sum, so the per-example `llh` is a genuine log-likelihood.  These
theorems justify reading `crf_llh` (numerator minus denominator in
`CRF.forward`) as the log-probability of the gold path under the Gibbs
distribution over all candidate paths. -/

theorem sum_exp_pos {α : Type} (l : List α) (f : α → ℝ) (hl : l ≠ []) :
    0 < (l.map (fun y => Real.exp (f y))).sum := by
  cases l with
  | nil => exact absurd rfl hl
  | cons a t =>
    rw [List.map_cons, List.sum_cons]
    have h1 : (0 : ℝ) < Real.exp (f a) := Real.exp_pos _
    have h2 : (0 : ℝ) ≤ (t.map (fun y => Real.exp (f y))).sum :=
      List.sum_nonneg (by
        intro x hx
        obtain ⟨y, _, rfl⟩ := List.mem_map.mp hx
        exact le_of_lt (Real.exp_pos _))
    linarith

theorem exp_logsumexp (l : List ℝ) (hl : l ≠ []) :
    Real.exp (logsumexp l) = (l.map Real.exp).sum := by
  rw [logsumexp, Real.exp_log]
  have := sum_exp_pos l id hl
  simpa using this

theorem list_sum_comm {α β : Type} (l1 : List α) (l2 : List β)
    (f : α → β → ℝ) :
    (l1.map (fun a => (l2.map (f a)).sum)).sum =
      (l2.map (fun b => (l1.map (fun a => f a b)).sum)).sum := by
  induction l1 with
  | nil => simp
  | cons a l1 ih =>
    simp only [List.map_cons, List.sum_cons, ih]
    rw [← List.sum_map_add]

theorem zipWith_add_getD (a b : List ℝ) (K : ℕ) (ha : a.length = K)
    (hb : b.length = K) :
    List.zipWith (· + ·) a b =
      (List.range K).map (fun i => a.getD i 0 + b.getD i 0) := by
  apply List.ext_getElem
  · simp [List.length_zipWith, ha, hb]
  · intro i h1 h2
    have hia : i < a.length := by
      simp [List.length_zipWith, ha, hb] at h1
      omega
    have hib : i < b.length := by
      rw [hb, ← ha]
      exact hia
    simp only [List.getElem_zipWith, List.getElem_map, List.getElem_range]
    rw [List.getD_eq_getElem _ _ hia, List.getD_eq_getElem _ _ hib]

theorem getD_length_sub_one (l : List ℕ) (hl : l ≠ []) (d : ℕ) :
    l.getD (l.length - 1) d = l.getLastD d := by
  rw [List.getD_eq_getElem _ _ (by
    have := List.length_pos.mpr hl
    omega)]
  rw [List.getLastD_eq_getLast?, List.getLast?_eq_getElem?]
  rw [List.getElem?_eq_getElem (by
    have := List.length_pos.mpr hl
    omega)]
  rfl

theorem score_steps_all_true (trans : List (List ℝ)) (es : List (List ℝ))
    (ts : List ℕ) (prev : ℕ) (hts : ts.length = es.length) :
    score_steps trans es ts (List.replicate es.length true) prev =
      trans_sum trans es ts prev := by
  induction es generalizing ts prev with
  | nil =>
    have : ts = [] := List.eq_nil_of_length_eq_zero hts
    subst this
    rfl
  | cons e es ih =>
    cases ts with
    | nil => simp at hts
    | cons t ts =>
      show (if true then (trans.getD prev []).getD t 0 + e.getD t 0 else 0) +
        score_steps trans es ts (List.replicate es.length true) t = _
      rw [if_pos rfl, ih ts t (by simpa using hts)]
      show _ = (trans.getD prev []).getD t 0 + e.getD t 0 +
        trans_sum trans es ts t
      ring

theorem compute_score_full_mask (p : CRFParams) (e0 : List ℝ)
    (es : List (List ℝ)) (t0 : ℕ) (ts : List ℕ)
    (hts : ts.length = es.length) :
    compute_score p (e0 :: es) (t0 :: ts)
        (List.replicate (es.length + 1) true) =
      path_score p (e0 :: es) (t0 :: ts) := by
  show p.start_transitions.getD t0 0 + e0.getD t0 0 +
      score_steps p.transitions es ts
        (List.replicate (es.length + 1) true).tail t0 +
      p.end_transitions.getD ((t0 :: ts).getD
        ((List.replicate (es.length + 1) true).count true - 1) 0) 0 = _
  have htail : (List.replicate (es.length + 1) true).tail =
      List.replicate es.length true := by
    rw [List.replicate_succ]
    rfl
  have hcnt : (List.replicate (es.length + 1) true).count true =
      es.length + 1 := by
    simp
  rw [htail, hcnt, score_steps_all_true _ _ _ _ hts]
  have hlast : (t0 :: ts).getD (es.length + 1 - 1) 0 =
      (t0 :: ts).getLastD 0 := by
    have hlen : (t0 :: ts).length = es.length + 1 := by
      simp [hts]
    rw [← hlen]
    exact getD_length_sub_one _ (by simp) 0
  rw [hlast]
  rfl

theorem allPaths_ne_nil (K n : ℕ) (hK : 0 < K) : allPaths K n ≠ [] := by
  induction n with
  | zero => simp [allPaths]
  | succ n ih =>
    rw [allPaths]
    intro h
    rw [List.flatten_eq_nil_iff] at h
    have h0 : (allPaths K n).map (fun y => 0 :: y) ∈
        (List.range K).map (fun t => (allPaths K n).map (fun y => t :: y)) :=
      List.mem_map.mpr ⟨0, List.mem_range.mpr hK, rfl⟩
    have := h _ h0
    exact ih (by simpa using this)

/-- Forward-algorithm invariant: under a full mask, the exponential of the
final log-sum-exp of `_compute_normalizer` equals the sum, over all start
tags and path continuations, of the exponentiated accumulated scores. -/
theorem exp_norm_loop (trans : List (List ℝ)) (endT : List ℝ) (K : ℕ)
    (hendT : endT.length = K) (hK : 0 < K) (es : List (List ℝ))
    (alpha : List ℝ) (halpha : alpha.length = K) :
    Real.exp (logsumexp (List.zipWith (· + ·)
        (norm_loop trans es (List.replicate es.length true) alpha) endT)) =
      ((List.range K).map (fun s =>
        ((allPaths K es.length).map (fun y =>
          Real.exp (alpha.getD s 0 + trans_sum trans es y s +
            endT.getD (lastTag s y) 0))).sum)).sum := by
  induction es generalizing alpha with
  | nil =>
    have hloop : norm_loop trans [] (List.replicate 0 true) alpha = alpha :=
      rfl
    rw [show ([] : List (List ℝ)).length = 0 from rfl, hloop,
      zipWith_add_getD alpha endT K halpha hendT,
      exp_logsumexp _ (by
        intro h
        have := congrArg List.length h
        simp at this
        omega),
      List.map_map]
    congr 1
    apply List.map_congr_left
    intro i _
    simp [allPaths, trans_sum, lastTag, Function.comp]
  | cons e es ih =>
    have hstep : norm_loop trans (e :: es)
        (List.replicate (e :: es).length true) alpha =
        norm_loop trans es (List.replicate es.length true)
          (norm_step trans alpha e) := rfl
    have halpha2 : (norm_step trans alpha e).length = K := by
      simp [norm_step, halpha]
    rw [hstep, ih (norm_step trans alpha e) halpha2]
    have hA : ∀ t, t < K →
        (norm_step trans alpha e).getD t 0 =
          logsumexp ((List.range K).map
            (fun s => alpha.getD s 0 + (trans.getD s []).getD t 0 +
              e.getD t 0)) := by
      intro t ht
      rw [norm_step, halpha]
      exact getD_range_map K t _ _ ht
    have hL : ∀ t ∈ List.range K,
        ((allPaths K es.length).map (fun y =>
          Real.exp ((norm_step trans alpha e).getD t 0 +
            trans_sum trans es y t + endT.getD (lastTag t y) 0))).sum =
        ((List.range K).map (fun s =>
          ((allPaths K es.length).map (fun y =>
            Real.exp (alpha.getD s 0 + (trans.getD s []).getD t 0 +
              e.getD t 0 + (trans_sum trans es y t +
                endT.getD (lastTag t y) 0)))).sum)).sum := by
      intro t ht
      rw [List.mem_range] at ht
      have h1 : ∀ y ∈ allPaths K es.length,
          Real.exp ((norm_step trans alpha e).getD t 0 +
            trans_sum trans es y t + endT.getD (lastTag t y) 0) =
          Real.exp ((norm_step trans alpha e).getD t 0) *
            Real.exp (trans_sum trans es y t +
              endT.getD (lastTag t y) 0) := by
        intro y _
        rw [← Real.exp_add]
        congr 1
        ring
      rw [List.map_congr_left h1, List.sum_map_mul_left, hA t ht,
        exp_logsumexp _ (by
          intro hnil
          have := congrArg List.length hnil
          simp at this
          omega),
        List.map_map, ← List.sum_map_mul_right]
      apply congrArg
      apply List.map_congr_left
      intro s _
      show Real.exp (alpha.getD s 0 + (trans.getD s []).getD t 0 +
          e.getD t 0) * _ = _
      rw [← List.sum_map_mul_left]
      apply congrArg
      apply List.map_congr_left
      intro y _
      rw [← Real.exp_add]
    have hR : ∀ s ∈ List.range K,
        ((allPaths K (e :: es).length).map (fun y =>
          Real.exp (alpha.getD s 0 + trans_sum trans (e :: es) y s +
            endT.getD (lastTag s y) 0))).sum =
        ((List.range K).map (fun t =>
          ((allPaths K es.length).map (fun y =>
            Real.exp (alpha.getD s 0 + (trans.getD s []).getD t 0 +
              e.getD t 0 + (trans_sum trans es y t +
                endT.getD (lastTag t y) 0)))).sum)).sum := by
      intro s _
      rw [show allPaths K (e :: es).length =
        ((List.range K).map (fun t =>
          (allPaths K es.length).map (fun y => t :: y))).flatten from rfl]
      rw [List.map_flatten, List.map_map, List.sum_flatten, List.map_map]
      apply congrArg
      apply List.map_congr_left
      intro t _
      show ((allPaths K es.length).map (fun y => t :: y) |>.map
        (fun y => Real.exp (alpha.getD s 0 +
          trans_sum trans (e :: es) y s +
          endT.getD (lastTag s y) 0))).sum = _
      rw [List.map_map]
      apply congrArg
      apply List.map_congr_left
      intro y _
      show Real.exp (alpha.getD s 0 +
        trans_sum trans (e :: es) (t :: y) s +
        endT.getD (lastTag s (t :: y)) 0) = _
      rw [lastTag_cons]
      congr 1
      show alpha.getD s 0 + ((trans.getD s []).getD t 0 + e.getD t 0 +
        trans_sum trans es y t) + endT.getD (lastTag t y) 0 = _
      ring
    rw [List.map_congr_left hL, list_sum_comm]
    apply congrArg
    symm
    apply List.map_congr_left hR

/-- The exponential of `_compute_normalizer` under a full mask is exactly
the CRF partition sum: the sum of exponentiated total path scores over all
candidate tag sequences. -/
theorem exp_compute_normalizer (p : CRFParams) (e0 : List ℝ)
    (es : List (List ℝ)) (hcrf : CRFShape p) (hK : 0 < p.numTags)
    (he0 : e0.length = p.numTags) :
    Real.exp (compute_normalizer p (e0 :: es)
        (List.replicate (es.length + 1) true)) =
      ((allPaths p.numTags (es.length + 1)).map
        (fun y => Real.exp (path_score p (e0 :: es) y))).sum := by
  obtain ⟨hst, hen, _, _⟩ := hcrf
  have ha0 : (List.zipWith (· + ·) p.start_transitions e0).length =
      p.numTags := by
    rw [List.length_zipWith, hst, he0, min_self]
  have hnorm : compute_normalizer p (e0 :: es)
      (List.replicate (es.length + 1) true) =
      logsumexp (List.zipWith (· + ·)
        (norm_loop p.transitions es (List.replicate es.length true)
          (List.zipWith (· + ·) p.start_transitions e0))
        p.end_transitions) := by
    show logsumexp (List.zipWith (· + ·)
      (norm_loop p.transitions es
        (List.replicate (es.length + 1) true).tail
        (List.zipWith (· + ·) p.start_transitions e0))
      p.end_transitions) = _
    rw [show (List.replicate (es.length + 1) true).tail =
      List.replicate es.length true from by rw [List.replicate_succ]; rfl]
  rw [hnorm, exp_norm_loop p.transitions p.end_transitions p.numTags hen hK
    es _ ha0]
  rw [show allPaths p.numTags (es.length + 1) =
    ((List.range p.numTags).map (fun t =>
      (allPaths p.numTags es.length).map (fun y => t :: y))).flatten from rfl]
  rw [List.map_flatten, List.map_map, List.sum_flatten, List.map_map]
  apply congrArg
  apply List.map_congr_left
  intro s hs
  rw [List.mem_range] at hs
  show _ = ((allPaths p.numTags es.length).map (fun y => s :: y) |>.map
    (fun y => Real.exp (path_score p (e0 :: es) y))).sum
  rw [List.map_map]
  apply congrArg
  apply List.map_congr_left
  intro y _
  show Real.exp ((List.zipWith (· + ·) p.start_transitions e0).getD s 0 +
    trans_sum p.transitions es y s +
    p.end_transitions.getD (lastTag s y) 0) =
    Real.exp (path_score p (e0 :: es) (s :: y))
  rw [getD_zipWith_add _ _ _ (by rw [hst]; exact hs) (by rw [he0]; exact hs)]
  congr 1
  rw [path_score]
  rw [show (s :: y).getLastD 0 = lastTag s y from
    (List.getLastD_cons 0 s y).trans rfl]

/-- The per-example quantity `numerator - denominator` of `CRF.forward` is a
genuine log-likelihood: its exponential times the partition sum equals the
exponentiated gold path score, i.e. `exp(llh) = exp(score(gold)) / Z`. -/
theorem crf_llh_is_log_likelihood (p : CRFParams) (e0 : List ℝ)
    (es : List (List ℝ)) (t0 : ℕ) (ts : List ℕ) (hcrf : CRFShape p)
    (hK : 0 < p.numTags) (he0 : e0.length = p.numTags)
    (hts : ts.length = es.length) :
    Real.exp (crf_llh p (e0 :: es) (t0 :: ts)
        (List.replicate (es.length + 1) true)) *
      ((allPaths p.numTags (es.length + 1)).map
        (fun y => Real.exp (path_score p (e0 :: es) y))).sum =
      Real.exp (path_score p (e0 :: es) (t0 :: ts)) := by
  rw [crf_llh, Real.exp_sub, compute_score_full_mask _ _ _ _ _ hts,
    exp_compute_normalizer _ _ _ hcrf hK he0]
  rw [div_mul_cancel₀]
  exact ne_of_gt (sum_exp_pos _ _ (allPaths_ne_nil _ _ hK))

/-- The log-likelihood identity instantiated at the concrete two-tag,
two-step all-zero example. -/
theorem crf_llh_is_log_likelihood_example :
    Real.exp (crf_llh pZero2 [[0, 0], [0, 0]] [0, 0]
        (List.replicate 2 true)) *
      ((allPaths 2 2).map
        (fun y => Real.exp (path_score pZero2 [[0, 0], [0, 0]] y))).sum =
      Real.exp (path_score pZero2 [[0, 0], [0, 0]] [0, 0]) :=
  crf_llh_is_log_likelihood pZero2 [0, 0] [[0, 0]] 0 [0]
    ⟨by decide, by decide, by decide, by decide⟩ (by decide) (by decide)
    (by decide)

end LNER
